import Mathlib

/-!
# Verification of the web-crawler archival engine

Shallow embedding, in Lean 4, of the crawl/store engine of the
`KomarovAI/web-crawler` repository, together with proofs and refutations of
its specified properties.

The embedded code comprises:

* the CPython 3.11 `urllib.parse` routines that the crawler calls
  (`urlparse`/`urlsplit`, `parse_qs`/`parse_qsl`, `quote_plus`/`unquote`,
  `urlencode`, `urljoin`, `urlunparse`/`urlunsplit`), modelled character-level
  on Lean strings (ASCII case mapping; the NFKC netloc check, which can only
  fire for exotic non-ASCII netlocs, is modelled as a no-op);
* `URLNormalizer.normalize` / `URLNormalizer.validate`
  (`src/crawler_production.py`);
* `RobotsCompliance.can_fetch` (`src/robot_parser.py`);
* `AssetExtractor.extract_assets`, `AssetExtractor.guess_mime_type` and
  `AssetExtractor.download_and_save_asset` (`src/asset_extractor.py`) over the
  SQLite schema of `src/smart_archiver_v2.py`;
* the main crawl loop of `ProductionCrawler.run`/`fetch`
  (`src/crawler_production.py`);
* the archive loop of `ProfessionalArchiver.archive`
  (`src/smart_archiver_v4.py`).

Hash functions (SHA-256/MD5) are not implemented bit-for-bit; instead every
store operation is parametrised by an arbitrary hash function
`sha : List Nat → String`, so each theorem proved about the store holds for
every hash function, in particular for SHA-256.  HTML parsing by
BeautifulSoup is treated as the component boundary: a parsed document is a
list of tags (respectively a list of `href` attribute values), exactly the
data the Python code reads off the soup.
-/

set_option maxRecDepth 4096

namespace Crawler

/-! ## Python string primitives (character-level model)

Python `str` values are modelled as Lean `String`s (lists of Unicode scalar
values); the primitives below mirror the CPython behaviour on them.  Case
mapping is modelled on the ASCII range only (`str.lower` agrees with it
there). -/

/-- `str.lower`, ASCII fragment: `Char.toLower` maps exactly `A..Z` to
`a..z`. -/
def pyLowerL (l : List Char) : List Char := l.map Char.toLower

/-- `str.lower` on a whole string (ASCII fragment). -/
def pyLower (s : String) : String := ⟨pyLowerL s.data⟩

/-- First index of character `c`, i.e. `str.find(c)`. -/
def lfind (c : Char) : List Char → Option Nat
  | [] => none
  | a :: l => if a = c then some 0 else (lfind c l).map (· + 1)

/-- Last index of character `c`, i.e. `str.rfind(c)`. -/
def lrfind (c : Char) (l : List Char) : Option Nat :=
  (lfind c l.reverse).map (fun i => l.length - 1 - i)

/-- `s.split(sep, 1)`: split at the first occurrence of `sep`, if any. -/
def splitFirst (sep : Char) : List Char → Option (List Char × List Char)
  | [] => none
  | a :: l =>
    if a = sep then some ([], l)
    else (splitFirst sep l).map (fun p => (a :: p.1, p.2))

/-- `s.split(sep)` (one-character separator): always returns at least one
field. -/
def splitAll (sep : Char) : List Char → List (List Char)
  | [] => [[]]
  | a :: l =>
    if a = sep then [] :: splitAll sep l
    else
      match splitAll sep l with
      | [] => [[a]]
      | f :: fs => (a :: f) :: fs

/-- `'\t'`, `'\r'`, `'\n'` — `_UNSAFE_URL_BYTES_TO_REMOVE` in
`urllib.parse`. -/
def isUnsafeUrlByte (c : Char) : Bool := c = '\t' ∨ c = '\r' ∨ c = '\n'

/-- `url.replace('\t', '').replace('\r', '').replace('\n', '')` as done at
the top of `urlsplit`. -/
def removeUnsafe (l : List Char) : List Char := l.filter (fun c => !isUnsafeUrlByte c)

/-- Python whitespace for `str.strip()` (ASCII fragment). -/
def isPySpace (c : Char) : Bool :=
  c = ' ' ∨ c = '\t' ∨ c = '\n' ∨ c = '\r' ∨ c = '\x0b' ∨ c = '\x0c'

/-- `str.strip()` (ASCII whitespace fragment). -/
def pyStripL (l : List Char) : List Char :=
  ((l.dropWhile isPySpace).reverse.dropWhile isPySpace).reverse

/-- `str.strip()` on strings. -/
def pyStrip (s : String) : String := ⟨pyStripL s.data⟩

/-- `path.rstrip('/')`. -/
def rstripSlash (l : List Char) : List Char :=
  (l.reverse.dropWhile (· = '/')).reverse

/-- `a.startswith(b)` on char lists. -/
def lStartsWith : List Char → List Char → Bool
  | _, [] => true
  | [], _ :: _ => false
  | a :: l, b :: m => a = b && lStartsWith l m

/-- `a.endswith(b)` on char lists. -/
def lEndsWith (l m : List Char) : Bool := lStartsWith l.reverse m.reverse

/-- `sub in s` (substring containment), as used by the asset extractor on
`meta` attribute names. -/
def lContainsSub (l sub : List Char) : Bool :=
  match l with
  | [] => lStartsWith [] sub
  | _ :: rest => lStartsWith l sub || lContainsSub rest sub

/-! ## UTF-8

CPython encodes `str` to UTF-8 before percent-quoting and decodes
percent-unquoted bytes with `errors='replace'`.  `utf8EncodeNat` encodes one
Unicode scalar value; `utf8Dec` is the decoder with U+FFFD replacement
(maximal-subpart policy, as CPython implements). -/

def utf8Cont (b : Nat) : Bool := 0x80 ≤ b && b < 0xC0
def utf8Cont3 (b b1 : Nat) : Bool :=
  if b = 0xE0 then 0xA0 ≤ b1 && b1 < 0xC0
  else if b = 0xED then 0x80 ≤ b1 && b1 < 0xA0
  else utf8Cont b1
def utf8Cont4 (b b1 : Nat) : Bool :=
  if b = 0xF0 then 0x90 ≤ b1 && b1 < 0xC0
  else if b = 0xF4 then 0x80 ≤ b1 && b1 < 0x90
  else utf8Cont b1
def repl : Char := Char.ofNat 0xFFFD

def utf8DecF : Nat → List Nat → List Char
  | 0, _ => []
  | _ + 1, [] => []
  | f + 1, b :: bs =>
    if b < 0x80 then Char.ofNat b :: utf8DecF f bs
    else if b < 0xC2 then repl :: utf8DecF f bs
    else if b < 0xE0 then
      match bs with
      | [] => [repl]
      | b1 :: bs1 =>
        if utf8Cont b1 then Char.ofNat ((b - 0xC0) * 64 + (b1 - 0x80)) :: utf8DecF f bs1
        else repl :: utf8DecF f bs
    else if b < 0xF0 then
      match bs with
      | [] => [repl]
      | b1 :: bs1 =>
        if utf8Cont3 b b1 then
          match bs1 with
          | [] => [repl]
          | b2 :: bs2 =>
            if utf8Cont b2 then
              Char.ofNat ((b - 0xE0) * 4096 + (b1 - 0x80) * 64 + (b2 - 0x80)) :: utf8DecF f bs2
            else repl :: utf8DecF f bs1
        else repl :: utf8DecF f bs
    else if b < 0xF5 then
      match bs with
      | [] => [repl]
      | b1 :: bs1 =>
        if utf8Cont4 b b1 then
          match bs1 with
          | [] => [repl]
          | b2 :: bs2 =>
            if utf8Cont b2 then
              match bs2 with
              | [] => [repl]
              | b3 :: bs3 =>
                if utf8Cont b3 then
                  Char.ofNat ((b - 0xF0) * 262144 + (b1 - 0x80) * 4096 + (b2 - 0x80) * 64 + (b3 - 0x80)) ::
                    utf8DecF f bs3
                else repl :: utf8DecF f bs2
            else repl :: utf8DecF f bs1
        else repl :: utf8DecF f bs
    else repl :: utf8DecF f bs

def utf8Dec (bs : List Nat) : List Char := utf8DecF bs.length bs


theorem utf8DecF_fuel : ∀ f g bs, bs.length ≤ f → bs.length ≤ g →
    utf8DecF f bs = utf8DecF g bs := by
  intro f
  induction f with
  | zero =>
    intro g bs hf _
    have hb : bs = [] := by cases bs with | nil => rfl | cons a l => simp at hf
    subst hb; cases g <;> rfl
  | succ f ih =>
    intro g bs hf hg
    cases bs with
    | nil => cases g <;> rfl
    | cons b bs' =>
      obtain ⟨g', rfl⟩ : ∃ g'', g = g'' + 1 := by
        cases g with
        | zero => simp at hg
        | succ g'' => exact ⟨g'', rfl⟩
      simp only [List.length_cons] at hf hg
      cases bs' with
      | nil =>
        simp only [utf8DecF]
        rw [ih g' [] (by simp) (by simp)]
      | cons b1 bs1 =>
        cases bs1 with
        | nil =>
          simp only [utf8DecF]
          rw [ih g' [b1] (by simp at hf ⊢; omega) (by simp at hg ⊢; omega),
            ih g' [] (by simp) (by simp)]
        | cons b2 bs2 =>
          cases bs2 with
          | nil =>
            simp only [utf8DecF]
            rw [ih g' [b1, b2] (by simp at hf ⊢; omega) (by simp at hg ⊢; omega),
              ih g' [b2] (by simp at hf ⊢; omega) (by simp at hg ⊢; omega),
              ih g' [] (by simp) (by simp)]
          | cons b3 bs3 =>
            simp only [utf8DecF]
            rw [ih g' (b1 :: b2 :: b3 :: bs3) (by simp at hf ⊢; omega) (by simp at hg ⊢; omega),
              ih g' (b2 :: b3 :: bs3) (by simp at hf ⊢; omega) (by simp at hg ⊢; omega),
              ih g' (b3 :: bs3) (by simp at hf ⊢; omega) (by simp at hg ⊢; omega),
              ih g' bs3 (by simp at hf ⊢; omega) (by simp at hg ⊢; omega)]


def utf8EncodeNat (n : Nat) : List Nat :=
  if n < 0x80 then [n]
  else if n < 0x800 then [0xC0 + n / 64, 0x80 + n % 64]
  else if n < 0x10000 then [0xE0 + n / 4096, 0x80 + n / 64 % 64, 0x80 + n % 64]
  else [0xF0 + n / 262144, 0x80 + n / 4096 % 64, 0x80 + n / 64 % 64, 0x80 + n % 64]

def utf8Encode : List Char → List Nat
  | [] => []
  | c :: l => utf8EncodeNat c.toNat ++ utf8Encode l

theorem char_ofNat_toNat (c : Char) : Char.ofNat c.toNat = c := by
  have hv : Nat.isValidChar c.toNat := c.valid
  have hlt : c.toNat < 2 ^ 32 := by
    rcases hv with h | ⟨_, h⟩ <;> omega
  unfold Char.ofNat
  rw [dif_pos hv]
  unfold Char.ofNatAux
  apply Char.ext
  apply UInt32.eq_of_toBitVec_eq
  apply BitVec.eq_of_toNat_eq
  simp [Char.toNat, UInt32.toNat, Nat.mod_eq_of_lt hlt]

theorem char_toNat_valid (c : Char) :
    c.toNat < 0xD800 ∨ (0xE000 ≤ c.toNat ∧ c.toNat < 0x110000) := by
  have hv : Nat.isValidChar c.toNat := c.valid
  rcases hv with h | h
  · exact Or.inl h
  · exact Or.inr h

theorem utf8Dec_encode_cons (c : Char) (rest : List Nat) :
    utf8Dec (utf8EncodeNat c.toNat ++ rest) = c :: utf8Dec rest := by
  have hvalid := char_toNat_valid c
  generalize hn : c.toNat = n at hvalid ⊢
  unfold utf8Dec
  by_cases h1 : n < 0x80
  · rw [utf8EncodeNat, if_pos h1]
    simp only [List.cons_append, List.nil_append, List.length_cons]
    simp only [utf8DecF, if_pos h1]
    rw [← hn, char_ofNat_toNat]
  · by_cases h2 : n < 0x800
    · rw [utf8EncodeNat, if_neg h1, if_pos h2]
      have hb0 : ¬ (0xC0 + n / 64 < 0x80) := by omega
      have hb0' : ¬ (0xC0 + n / 64 < 0xC2) := by omega
      have hb0'' : 0xC0 + n / 64 < 0xE0 := by omega
      have hc1 : utf8Cont (0x80 + n % 64) = true := by
        simp only [utf8Cont, Bool.and_eq_true, decide_eq_true_eq]
        omega
      simp only [List.cons_append, List.nil_append, List.length_cons]
      simp only [utf8DecF, if_neg hb0, if_neg hb0', if_pos hb0'', if_pos hc1]
      rw [utf8DecF_fuel (rest.length + 1) rest.length rest (by omega) (le_refl _)]
      have hval : (0xC0 + n / 64 - 0xC0) * 64 + (0x80 + n % 64 - 0x80) = n := by omega
      rw [hval, ← hn, char_ofNat_toNat]
    · by_cases h3 : n < 0x10000
      · rw [utf8EncodeNat, if_neg h1, if_neg h2, if_pos h3]
        have hsur : n < 0xD800 ∨ 0xE000 ≤ n := by omega
        have hb0 : ¬ (0xE0 + n / 4096 < 0x80) := by omega
        have hb0' : ¬ (0xE0 + n / 4096 < 0xC2) := by omega
        have hb0'' : ¬ (0xE0 + n / 4096 < 0xE0) := by omega
        have hb0''' : 0xE0 + n / 4096 < 0xF0 := by omega
        have hc1 : utf8Cont3 (0xE0 + n / 4096) (0x80 + n / 64 % 64) = true := by
          unfold utf8Cont3 utf8Cont
          by_cases he : 0xE0 + n / 4096 = 0xE0
          · rw [if_pos he]
            simp only [Bool.and_eq_true, decide_eq_true_eq]
            omega
          · rw [if_neg he]
            by_cases hed : 0xE0 + n / 4096 = 0xED
            · rw [if_pos hed]
              simp only [Bool.and_eq_true, decide_eq_true_eq]
              omega
            · rw [if_neg hed]
              simp only [Bool.and_eq_true, decide_eq_true_eq]
              omega
        have hc2 : utf8Cont (0x80 + n % 64) = true := by
          simp only [utf8Cont, Bool.and_eq_true, decide_eq_true_eq]
          omega
        simp only [List.cons_append, List.nil_append, List.length_cons]
        simp only [utf8DecF, if_neg hb0, if_neg hb0', if_neg hb0'', if_pos hb0''',
          if_pos hc1, if_pos hc2]
        rw [utf8DecF_fuel (rest.length + 1 + 1) rest.length rest (by omega) (le_refl _)]
        have hval : (0xE0 + n / 4096 - 0xE0) * 4096 + (0x80 + n / 64 % 64 - 0x80) * 64 +
            (0x80 + n % 64 - 0x80) = n := by omega
        rw [hval, ← hn, char_ofNat_toNat]
      · have h4 : n < 0x110000 := by omega
        rw [utf8EncodeNat, if_neg h1, if_neg h2, if_neg h3]
        have hb0 : ¬ (0xF0 + n / 262144 < 0x80) := by omega
        have hb0' : ¬ (0xF0 + n / 262144 < 0xC2) := by omega
        have hb0'' : ¬ (0xF0 + n / 262144 < 0xE0) := by omega
        have hb0''' : ¬ (0xF0 + n / 262144 < 0xF0) := by omega
        have hb0'''' : 0xF0 + n / 262144 < 0xF5 := by omega
        have hc1 : utf8Cont4 (0xF0 + n / 262144) (0x80 + n / 4096 % 64) = true := by
          unfold utf8Cont4 utf8Cont
          by_cases hf : 0xF0 + n / 262144 = 0xF0
          · rw [if_pos hf]
            simp only [Bool.and_eq_true, decide_eq_true_eq]
            omega
          · rw [if_neg hf]
            by_cases hf4 : 0xF0 + n / 262144 = 0xF4
            · rw [if_pos hf4]
              simp only [Bool.and_eq_true, decide_eq_true_eq]
              omega
            · rw [if_neg hf4]
              simp only [Bool.and_eq_true, decide_eq_true_eq]
              omega
        have hc2 : utf8Cont (0x80 + n / 64 % 64) = true := by
          simp only [utf8Cont, Bool.and_eq_true, decide_eq_true_eq]; omega
        have hc3 : utf8Cont (0x80 + n % 64) = true := by
          simp only [utf8Cont, Bool.and_eq_true, decide_eq_true_eq]; omega
        simp only [List.cons_append, List.nil_append, List.length_cons]
        simp only [utf8DecF, if_neg hb0, if_neg hb0', if_neg hb0'', if_neg hb0''',
          if_pos hb0'''', if_pos hc1, if_pos hc2, if_pos hc3]
        rw [utf8DecF_fuel (rest.length + 1 + 1 + 1) rest.length rest (by omega) (le_refl _)]
        have hval : (0xF0 + n / 262144 - 0xF0) * 262144 + (0x80 + n / 4096 % 64 - 0x80) * 4096 +
            (0x80 + n / 64 % 64 - 0x80) * 64 + (0x80 + n % 64 - 0x80) = n := by omega
        rw [hval, ← hn, char_ofNat_toNat]

theorem utf8Dec_utf8Encode (l : List Char) : utf8Dec (utf8Encode l) = l := by
  induction l with
  | nil => rfl
  | cons c l ih => rw [utf8Encode, utf8Dec_encode_cons, ih]

/-! ## Percent-quoting (`urllib.parse.quote_plus` and friends)

`quote` encodes the string as UTF-8 and percent-escapes every byte outside
`_ALWAYS_SAFE` plus the caller's `safe` set; `quote_plus` additionally maps
spaces to `+`.  `unquote` splits out maximal ASCII runs, percent-decodes each
run to bytes and UTF-8-decodes it with replacement. -/

/-- `_ALWAYS_SAFE`: ASCII letters, digits, and `_.-~`. -/
def alwaysSafeByte (b : Nat) : Bool :=
  (0x41 ≤ b && b ≤ 0x5A) || (0x61 ≤ b && b ≤ 0x7A) || (0x30 ≤ b && b ≤ 0x39) ||
    b = 0x5F || b = 0x2E || b = 0x2D || b = 0x7E

/-- Upper-case hex digit of `n < 16`, as produced by `'%{:02X}'.format`. -/
def hexDigitUpper (n : Nat) : Char :=
  if n < 10 then Char.ofNat (0x30 + n) else Char.ofNat (0x41 + (n - 10))

/-- `'%{:02X}'.format(b)`. -/
def percentEncByte (b : Nat) : List Char := ['%', hexDigitUpper (b / 16), hexDigitUpper (b % 16)]

/-- One byte through `_Quoter.__missing__`: `chr(b)` if in the safe set,
otherwise `%XX`. -/
def quoterByte (safe : List Nat) (b : Nat) : List Char :=
  if alwaysSafeByte b || safe.contains b then [Char.ofNat b] else percentEncByte b

/-- Concatenating map (Python string-builder loops). -/
def lconcatMap (f : α → List β) : List α → List β
  | [] => []
  | a :: l => f a ++ lconcatMap f l

/-- `quote_from_bytes(bs, safe)`.  The `not bs.rstrip(...)` fast path returns
`bs.decode()`, which on all-safe (hence ASCII) bytes is `map chr`. -/
def quote_from_bytes (safe : List Nat) (bs : List Nat) : List Char :=
  if bs = [] then []
  else if bs.all (fun b => alwaysSafeByte b || safe.contains b) then bs.map Char.ofNat
  else lconcatMap (quoterByte safe) bs

/-- `quote(string, safe)` for `str` input with UTF-8 encoding and strict
errors (every Lean `Char` is encodable, so the strict handler never fires). -/
def pyQuote (safe : List Nat) (s : List Char) : List Char :=
  if s = [] then [] else quote_from_bytes safe (utf8Encode s)

/-- `quote_plus(string)` with the default empty `safe` set, as `urlencode`
calls it. -/
def pyQuotePlus (s : List Char) : List Char :=
  if ¬ s.contains ' ' then pyQuote [] s
  else (pyQuote [0x20] s).map (fun c => if c = ' ' then '+' else c)

/-- Hex digit value, both cases (`_hexdig`). -/
def hexVal? (c : Char) : Option Nat :=
  if '0' ≤ c ∧ c ≤ '9' then some (c.toNat - 0x30)
  else if 'A' ≤ c ∧ c ≤ 'F' then some (c.toNat - 0x41 + 10)
  else if 'a' ≤ c ∧ c ≤ 'f' then some (c.toNat - 0x61 + 10)
  else none

/-- `unquote_to_bytes` on one ASCII run (fuelled; `fuel = length` always
suffices since each step consumes at least one character): after each `%`, a
valid hex pair becomes a byte; otherwise the `%` stays literal. -/
def unquoteToBytesF : Nat → List Char → List Nat
  | 0, _ => []
  | _ + 1, [] => []
  | f + 1, c :: l =>
    if c = '%' then
      match l with
      | h1 :: h2 :: rest =>
        match hexVal? h1, hexVal? h2 with
        | some a, some b => (a * 16 + b) :: unquoteToBytesF f rest
        | _, _ => 0x25 :: unquoteToBytesF f l
      | _ => 0x25 :: unquoteToBytesF f l
    else c.toNat :: unquoteToBytesF f l

/-- `unquote_to_bytes` on one ASCII run. -/
def unquote_to_bytes (l : List Char) : List Nat := unquoteToBytesF l.length l

theorem unquoteToBytesF_fuel : ∀ f g l, l.length ≤ f → l.length ≤ g →
    unquoteToBytesF f l = unquoteToBytesF g l := by
  intro f
  induction f with
  | zero =>
    intro g l hf _
    have hb : l = [] := by cases l with | nil => rfl | cons a m => simp at hf
    subst hb; cases g <;> rfl
  | succ f ih =>
    intro g l hf hg
    cases l with
    | nil => cases g <;> rfl
    | cons c l' =>
      obtain ⟨g', rfl⟩ : ∃ g'', g = g'' + 1 := by
        cases g with
        | zero => simp at hg
        | succ g'' => exact ⟨g'', rfl⟩
      simp only [List.length_cons] at hf hg
      cases l' with
      | nil =>
        simp only [unquoteToBytesF]
        rw [ih g' [] (by simp) (by simp)]
      | cons h1 l1 =>
        cases l1 with
        | nil =>
          simp only [unquoteToBytesF]
          rw [ih g' [h1] (by simp at hf ⊢; omega) (by simp at hg ⊢; omega)]
        | cons h2 l2 =>
          simp only [unquoteToBytesF]
          rw [ih g' (h1 :: h2 :: l2) (by simp at hf ⊢; omega) (by simp at hg ⊢; omega),
            ih g' l2 (by simp at hf ⊢; omega) (by simp at hg ⊢; omega)]

/-- ASCII test (`[\x00-\x7f]` in `_asciire`). -/
def isAscii (c : Char) : Bool := c.toNat < 0x80

/-- The `_asciire` loop of `unquote`: maximal ASCII runs are percent-decoded
and UTF-8-decoded with replacement; non-ASCII characters pass through.  The
accumulator holds the current run, reversed. -/
def unquoteRuns (acc : List Char) : List Char → List Char
  | [] => utf8Dec (unquote_to_bytes acc.reverse)
  | c :: l =>
    if isAscii c then unquoteRuns (c :: acc) l
    else utf8Dec (unquote_to_bytes acc.reverse) ++ c :: unquoteRuns [] l

/-- `unquote(string, encoding='utf-8', errors='replace')`. -/
def pyUnquote (s : List Char) : List Char :=
  if ¬ s.contains '%' then s else unquoteRuns [] s

/-! ## Query strings (`parse_qsl`, `parse_qs`, `urlencode`) -/

/-- `s.replace('+', ' ')` as `parse_qsl` applies before unquoting. -/
def plusToSpace (l : List Char) : List Char := l.map (fun c => if c = '+' then ' ' else c)

/-- The per-field body of `parse_qsl`'s loop: `none` models `continue`
(an empty field, or a skipped blank value), `some` an appended pair.  A
field without `=` gets the blank value appended by `nv.append('')` when
`keep_blank_values` is set. -/
def qslField (keepBlank : Bool) (f : List Char) : Option (String × String) :=
  if f = [] then none
  else
    match splitFirst '=' f with
    | some (nm, vl) =>
      if vl ≠ [] ∨ keepBlank then
        some (⟨pyUnquote (plusToSpace nm)⟩, ⟨pyUnquote (plusToSpace vl)⟩)
      else none
    | none =>
      if keepBlank then some (⟨pyUnquote (plusToSpace f)⟩, ⟨pyUnquote (plusToSpace [])⟩)
      else none

/-- `parse_qsl(qs, keep_blank_values, separator='&')` (non-strict): the
append-in-a-loop is a `filterMap` over the `&`-separated fields. -/
def pyParseQsl (keepBlank : Bool) (qs : List Char) : List (String × String) :=
  (if qs = [] then [] else splitAll '&' qs).filterMap (qslField keepBlank)

/-- The dict-building loop of `parse_qs`: append to an existing key's list,
else add a new key at the end (insertion order). -/
def addQsPair (acc : List (String × List String)) (kv : String × String) :
    List (String × List String) :=
  if acc.any (fun e => e.1 = kv.1) then
    acc.map (fun e => if e.1 = kv.1 then (e.1, e.2 ++ [kv.2]) else e)
  else acc ++ [(kv.1, [kv.2])]

/-- `parse_qs(qs, keep_blank_values)` as an insertion-ordered association
list (Python dicts preserve insertion order). -/
def pyParseQs (keepBlank : Bool) (qs : List Char) : List (String × List String) :=
  (pyParseQsl keepBlank qs).foldl addQsPair []

/-- Python string `<` (lexicographic by code point). -/
def pyStrLtL : List Char → List Char → Bool
  | [], [] => false
  | [], _ :: _ => true
  | _ :: _, [] => false
  | a :: l, b :: m => if a < b then true else if b < a then false else pyStrLtL l m

/-- Python string `<` on `String`. -/
def pyStrLt (a b : String) : Bool := pyStrLtL a.data b.data

/-- Python list-of-strings `<` (lexicographic). -/
def pyStrListLt : List String → List String → Bool
  | _, [] => false
  | [], _ :: _ => true
  | a :: l, b :: m => if pyStrLt a b then true else if pyStrLt b a then false else pyStrListLt l m

/-- Python tuple `<` on `(key, values)` items. -/
def pyItemLt (x y : String × List String) : Bool :=
  if pyStrLt x.1 y.1 then true else if pyStrLt y.1 x.1 then false else pyStrListLt x.2 y.2

/-- `sorted` on strings: ascending stable sort; on strings ties are
identical elements, so any sorted permutation is the Python output. -/
def pySortStrings (l : List String) : List String :=
  l.insertionSort (fun a b => pyStrLt b a = false)

/-- `sorted` on `(key, values)` items (tuple comparison). -/
def pySortItems (l : List (String × List String)) : List (String × List String) :=
  l.insertionSort (fun x y => pyItemLt y x = false)

/-- `'&'.join`. -/
def joinAmp : List (List Char) → List Char
  | [] => []
  | [x] => x
  | x :: xs => x ++ '&' :: joinAmp xs

/-- `urlencode(query, doseq=True)` over an association list with list
values, via `quote_plus`. -/
def pyUrlencodeDoseq (query : List (String × List String)) : List Char :=
  joinAmp (lconcatMap (fun kv =>
    kv.2.map (fun v => pyQuotePlus kv.1.data ++ '=' :: pyQuotePlus v.data)) query)

/-! ## `urlsplit` / `urlparse` (CPython 3.11)

`none` models the `ValueError("Invalid IPv6 URL")` raise; the NFKC netloc
check (`_checknetloc`), which can only raise for exotic non-ASCII netlocs, is
modelled as always passing.  `allow_fragments` is `True` at every call site
in the crawler and is therefore fixed. -/

structure SplitResult where
  scheme : String
  netloc : String
  path : String
  query : String
  fragment : String
deriving Repr, DecidableEq

structure ParseResult where
  scheme : String
  netloc : String
  path : String
  params : String
  query : String
  fragment : String
deriving Repr, DecidableEq

/-- `scheme_chars`. -/
def isSchemeChar (c : Char) : Bool :=
  ('a' ≤ c && c ≤ 'z') || ('A' ≤ c && c ≤ 'Z') || ('0' ≤ c && c ≤ '9') ||
    c = '+' || c = '-' || c = '.'

/-- `url[0].isascii() and url[0].isalpha()`. -/
def isAsciiAlpha (c : Char) : Bool := ('a' ≤ c && c ≤ 'z') || ('A' ≤ c && c ≤ 'Z')

/-- Non-delimiter test for `_splitnetloc`: the netloc runs up to the first
`/`, `?` or `#`. -/
def notNetlocDelim (c : Char) : Bool := c ≠ '/' && c ≠ '?' && c ≠ '#'

/-- `_splitnetloc(url, 2)` (after the `//` has been dropped). -/
def splitNetloc (l : List Char) : List Char × List Char :=
  (l.takeWhile notNetlocDelim, l.dropWhile notNetlocDelim)

/-- `urlsplit(url, scheme)`; `none` models the IPv6-bracket `ValueError`. -/
def pyUrlsplit (url0 : String) (scheme0 : String) : Option SplitResult :=
  let url1 := removeUnsafe url0.data
  let dscheme := removeUnsafe scheme0.data
  let sr :=
    match lfind ':' url1 with
    | some i =>
      if 0 < i ∧ isAsciiAlpha (url1.headD ' ') ∧ (url1.take i).all isSchemeChar then
        (pyLowerL (url1.take i), url1.drop (i + 1))
      else (dscheme, url1)
    | none => (dscheme, url1)
  let nr :=
    if lStartsWith sr.2 ['/', '/'] then splitNetloc (sr.2.drop 2) else ([], sr.2)
  if (nr.1.contains '[' && !nr.1.contains ']') || (nr.1.contains ']' && !nr.1.contains '[') then
    none
  else
    let fr :=
      match splitFirst '#' nr.2 with
      | some p => p
      | none => (nr.2, [])
    let qr :=
      match splitFirst '?' fr.1 with
      | some p => p
      | none => (fr.1, [])
    some ⟨⟨sr.1⟩, ⟨nr.1⟩, ⟨qr.1⟩, ⟨qr.2⟩, ⟨fr.2⟩⟩

/-- `str.find(c, start)`. -/
def findFrom (c : Char) (l : List Char) (start : Nat) : Option Nat :=
  (lfind c (l.drop start)).map (· + start)

/-- `_splitparams` (only called when `';' in url`). -/
def pySplitparams (url : List Char) : List Char × List Char :=
  let i? :=
    if url.contains '/' then
      match lrfind '/' url with
      | some j => findFrom ';' url j
      | none => none
    else lfind ';' url
  match i? with
  | some i => (url.take i, url.drop (i + 1))
  | none => (url, [])

def usesRelative : List String :=
  ["", "ftp", "http", "gopher", "nntp", "imap", "wais", "file", "https", "shttp",
    "mms", "prospero", "rtsp", "rtspu", "sftp", "svn", "svn+ssh", "ws", "wss"]

def usesNetloc : List String :=
  ["", "ftp", "http", "gopher", "nntp", "telnet", "imap", "wais", "file", "mms",
    "https", "shttp", "snews", "prospero", "rtsp", "rtspu", "rsync", "svn",
    "svn+ssh", "sftp", "nfs", "git", "git+ssh", "ws", "wss"]

def usesParams : List String :=
  ["", "ftp", "hdl", "prospero", "http", "imap", "https", "shttp", "rtsp",
    "rtspu", "sip", "sips", "mms", "sftp", "tel"]

/-- `urlparse(url, scheme)`: split off `;params` from the last path segment
for schemes that use them. -/
def pyUrlparse (url : String) (scheme0 : String := "") : Option ParseResult :=
  (pyUrlsplit url scheme0).map (fun r =>
    if usesParams.contains r.scheme ∧ r.path.data.contains ';' then
      let pp := pySplitparams r.path.data
      ⟨r.scheme, r.netloc, ⟨pp.1⟩, ⟨pp.2⟩, r.query, r.fragment⟩
    else ⟨r.scheme, r.netloc, r.path, "", r.query, r.fragment⟩)

/-! ## `urlunsplit` / `urlunparse` / `urljoin` -/

def pyUrlunsplit (scheme netloc url query fragment : List Char) : List Char :=
  let url1 :=
    if netloc ≠ [] ∨ (scheme ≠ [] ∧ usesNetloc.contains ⟨scheme⟩ ∧
        ¬ lStartsWith url ['/', '/']) then
      let u := if url ≠ [] ∧ ¬ lStartsWith url ['/'] then '/' :: url else url
      '/' :: '/' :: (netloc ++ u)
    else url
  let url2 := if scheme ≠ [] then scheme ++ ':' :: url1 else url1
  let url3 := if query ≠ [] then url2 ++ '?' :: query else url2
  if fragment ≠ [] then url3 ++ '#' :: fragment else url3

def pyUrlunparse (scheme netloc url params query fragment : List Char) : List Char :=
  let u := if params ≠ [] then url ++ ';' :: params else url
  pyUrlunsplit scheme netloc u query fragment

/-- `segments[1:-1] = filter(None, segments[1:-1])`. -/
def filterMiddle (l : List (List Char)) : List (List Char) :=
  match l with
  | [] => []
  | [x] => [x]
  | x :: rest =>
    match rest.getLast? with
    | none => [x]
    | some last => x :: (rest.dropLast.filter (fun s => s ≠ [])) ++ [last]

/-- `'/'.join`. -/
def joinSlash : List (List Char) → List Char
  | [] => []
  | [x] => x
  | x :: xs => x ++ '/' :: joinSlash xs

/-- `urljoin(base, url)`; `none` models a propagated `ValueError` from
`urlparse`. -/
def pyUrljoin (base url : String) : Option String :=
  if base = "" then some url
  else if url = "" then some base
  else
    match pyUrlparse base "" with
    | none => none
    | some b =>
      match pyUrlparse url b.scheme with
      | none => none
      | some u =>
        if u.scheme ≠ b.scheme ∨ ¬ usesRelative.contains u.scheme then some url
        else
          let netlocEarly :=
            if usesNetloc.contains u.scheme then
              if u.netloc ≠ "" then (u.netloc, true) else (b.netloc, false)
            else (u.netloc, false)
          if netlocEarly.2 then
            some ⟨pyUrlunparse u.scheme.data u.netloc.data u.path.data u.params.data
              u.query.data u.fragment.data⟩
          else
            let netloc := netlocEarly.1
            if u.path = "" ∧ u.params = "" then
              let query := if u.query = "" then b.query else u.query
              some ⟨pyUrlunparse u.scheme.data netloc.data b.path.data b.params.data
                query.data u.fragment.data⟩
            else
              let baseParts0 := splitAll '/' b.path.data
              let baseParts :=
                if baseParts0.getLast? ≠ some [] then baseParts0.dropLast else baseParts0
              let segments :=
                if lStartsWith u.path.data ['/'] then splitAll '/' u.path.data
                else filterMiddle (baseParts ++ splitAll '/' u.path.data)
              let resolved0 := segments.foldl
                (fun acc seg =>
                  if seg = ['.', '.'] then acc.dropLast
                  else if seg = ['.'] then acc
                  else acc ++ [seg]) []
              let resolved :=
                if segments.getLast? = some ['.'] ∨ segments.getLast? = some ['.', '.'] then
                  resolved0 ++ [[]]
                else resolved0
              let joined := joinSlash resolved
              let path := if joined = [] then ['/'] else joined
              some ⟨pyUrlunparse u.scheme.data netloc.data path u.params.data
                u.query.data u.fragment.data⟩

/-! ## `URLNormalizer` (`src/crawler_production.py`) -/

namespace URLNormalizer

/-- The path computation of `normalize`: `path = parsed.path or '/'`, then a
non-root path with a trailing slash gets `rstrip('/')`. -/
def stripPath (path : List Char) : List Char :=
  let p := if path = [] then ['/'] else path
  if p ≠ ['/'] ∧ lEndsWith p ['/'] then rstripSlash p else p

/-- The query computation of `normalize`:
`params = parse_qs(query, keep_blank_values=True)`;
`params = {k: sorted(v) for k, v in sorted(params.items())}`;
`query = urlencode(params, doseq=True) if params else ''`. -/
def normalizeQuery (query : List Char) : List Char :=
  let params0 := pyParseQs true query
  let params := (pySortItems params0).map (fun kv => (kv.1, pySortStrings kv.2))
  if params = [] then [] else pyUrlencodeDoseq params

/-- `URLNormalizer.normalize`: on a parse error (`except`) the input is
returned unchanged. -/
def normalize (url : String) : String :=
  match pyUrlparse url with
  | none => url
  | some parsed =>
    let scheme := pyLower parsed.scheme
    let netloc := pyLower parsed.netloc
    let path := stripPath parsed.path.data
    let query := normalizeQuery parsed.query.data
    ⟨scheme.data ++ ':' :: '/' :: '/' :: netloc.data ++ path ++
      (if query = [] then [] else '?' :: query)⟩

/-- `URLNormalizer.validate(url, allowed_domain)`; the empty string models a
Python `None`/falsy `allowed_domain`. -/
def validate (url : String) (allowedDomain : String) : Bool :=
  if url = "" ∨ url.length > 2048 then false
  else if ¬ (lStartsWith url.data "http://".data || lStartsWith url.data "https://".data) then
    false
  else if (["javascript:", "data:", "mailto:", "ftp:", "file:", "telnet:"].map String.data).any
      (fun s => lStartsWith url.data s) then false
  else
    match pyUrlparse url with
    | none => false
    | some parsed =>
      if allowedDomain ≠ "" ∧ pyLower parsed.netloc ≠ pyLower allowedDomain then false
      else if parsed.scheme = "" ∨ parsed.netloc = "" then false
      else true

end URLNormalizer

/-! ## `RobotsCompliance` (`src/robot_parser.py`) -/

namespace RobotsCompliance

/-- `can_fetch` from `src/robot_parser.py` lines 88–95: it parses the URL
and computes the path, then returns `True` unconditionally — the body reads
`return True  # Simplified - respect Disallow in full implementation` — and
the `except` branch also returns `True`. -/
def can_fetch (url : String) : Bool :=
  match pyUrlparse url with
  | some parsed =>
    let _path := if parsed.path = "" then "/" else parsed.path
    true
  | none => true

end RobotsCompliance

/-! ## `AssetExtractor` (`src/asset_extractor.py`)

BeautifulSoup parsing is the component boundary: a parsed document is the
list of tags (with the attributes the extractor reads) in document order.
`find_all` is modelled as filtering that list.  A `none` result models a
propagated exception from `urljoin` (caught by the caller as
`ASSET_ERROR`). -/

inductive Tag where
  | img (src : Option String)
  | link (rel : Option (List String)) (href : Option String)
  | script (src : Option String)
  | meta (property : Option String) (name : Option String) (content : Option String)
  | anchor (href : Option String)
  | other
deriving Repr, DecidableEq

structure AssetRef where
  url : String
  type : String
  mime : String
deriving Repr, DecidableEq

namespace AssetExtractor

/-- `MIME_TYPES` (insertion order preserved — `guess_mime_type` iterates
it). -/
def MIME_TYPES : List (String × String) :=
  [(".css", "text/css"), (".js", "application/javascript"), (".png", "image/png"),
    (".jpg", "image/jpeg"), (".jpeg", "image/jpeg"), (".svg", "image/svg+xml"),
    (".gif", "image/gif"), (".webp", "image/webp"), (".ico", "image/x-icon"),
    (".ttf", "font/ttf"), (".woff", "font/woff"), (".woff2", "font/woff2")]

/-- `guess_mime_type(url)`: first extension of `MIME_TYPES` that the
lower-cased URL ends with, else `application/octet-stream`. -/
def guess_mime_type (url : String) : String :=
  match MIME_TYPES.find? (fun em => lEndsWith (pyLowerL url.data) em.1.data) with
  | some em => em.2
  | none => "application/octet-stream"

/-- Shared state of the five extraction passes: the `seen` set and the
`assets` output list. -/
structure ExtState where
  seen : List String
  assets : List AssetRef
deriving Repr, DecidableEq

/-- The shared body: strip the attribute, skip empty values and values
starting with `data:`, resolve against the page URL, and deduplicate by
resolved URL. -/
def addAsset (pageUrl atype : String) (mime : String → String) (raw : String)
    (st : ExtState) : Option ExtState :=
  let s := pyStrip raw
  if s ≠ "" ∧ ¬ lStartsWith s.data "data:".data then
    match pyUrljoin pageUrl s with
    | none => none
    | some url =>
      if st.seen.contains url then some st
      else some ⟨st.seen ++ [url], st.assets ++ [⟨url, atype, mime url⟩]⟩
  else some st

/-- One pass of `soup.find_all(...)` over the document. -/
def foldPass (f : Tag → ExtState → Option ExtState) : List Tag → ExtState → Option ExtState
  | [], st => some st
  | t :: ts, st =>
    match f t st with
    | none => none
    | some st' => foldPass f ts st'

/-- `find_all('img', src=True)`. -/
def imgPass (pageUrl : String) (t : Tag) (st : ExtState) : Option ExtState :=
  match t with
  | .img (some src) => addAsset pageUrl "image" guess_mime_type src st
  | _ => some st

/-- `find_all('link')` with `link.get('rel')` truthy and `'stylesheet' in
rel`. -/
def stylesheetPass (pageUrl : String) (t : Tag) (st : ExtState) : Option ExtState :=
  match t with
  | .link (some rels) href =>
    if rels.contains "stylesheet" then
      addAsset pageUrl "css" (fun _ => "text/css") (href.getD "") st
    else some st
  | _ => some st

/-- `find_all('script', src=True)`. -/
def scriptPass (pageUrl : String) (t : Tag) (st : ExtState) : Option ExtState :=
  match t with
  | .script (some src) => addAsset pageUrl "js" (fun _ => "application/javascript") src st
  | _ => some st

/-- Favicon pass: `rel` truthy and containing `icon` or `shortcut icon`. -/
def faviconPass (pageUrl : String) (t : Tag) (st : ExtState) : Option ExtState :=
  match t with
  | .link (some rels) href =>
    if rels.any (fun r => r = "icon" ∨ r = "shortcut icon") then
      addAsset pageUrl "image" guess_mime_type (href.getD "") st
    else some st
  | _ => some st

/-- `meta.get('property') or meta.get('name')` (falsy chaining). -/
def propOrName (property name : Option String) : Option String :=
  match property with
  | some p => if p ≠ "" then some p else
      match name with
      | some n => if n ≠ "" then some n else none
      | none => none
  | none =>
    match name with
    | some n => if n ≠ "" then some n else none
    | none => none

/-- Meta-image pass (`og:image` / `twitter:image` substrings of the
lower-cased property-or-name). -/
def metaPass (pageUrl : String) (t : Tag) (st : ExtState) : Option ExtState :=
  match t with
  | .meta property name content =>
    match propOrName property name with
    | some pn =>
      if (["og:image", "twitter:image"].map String.data).any
          (fun x => lContainsSub (pyLowerL pn.data) x) then
        addAsset pageUrl "image" guess_mime_type (content.getD "") st
      else some st
    | none => some st
  | _ => some st

/-- `extract_assets(html, page_url)`: the five passes in source order over
one shared `seen` set. -/
def extract_assets (tags : List Tag) (pageUrl : String) : Option (List AssetRef) :=
  (foldPass (imgPass pageUrl) tags ⟨[], []⟩).bind fun st1 =>
    (foldPass (stylesheetPass pageUrl) tags st1).bind fun st2 =>
      (foldPass (scriptPass pageUrl) tags st2).bind fun st3 =>
        (foldPass (faviconPass pageUrl) tags st3).bind fun st4 =>
          (foldPass (metaPass pageUrl) tags st4).map fun st5 => st5.assets

/-! ### `download_and_save_asset` over the `smart_archiver_v2` schema

The v2 schema (`WARCCompliantArchiver._init_db`) declares
`assets.url TEXT UNIQUE`, `assets.content_hash TEXT UNIQUE` and
`asset_blobs.content_hash TEXT UNIQUE`; both inserts are `INSERT OR
IGNORE`, executed blob-first, then committed together.  The store is
parametrised by the hash function `sha` (SHA-256 in the source). -/

structure AssetRow where
  url : String
  domain : String
  path : String
  asset_type : String
  content_hash : String
  file_size : Nat
  mime_type : String
deriving Repr, DecidableEq

structure BlobRow where
  content_hash : String
  content : List Nat
deriving Repr, DecidableEq

structure Store where
  blobs : List BlobRow
  assets : List AssetRow
  downloadedHashes : List String
deriving Repr, DecidableEq

/-- `INSERT OR IGNORE INTO asset_blobs` (UNIQUE `content_hash`). -/
def insertBlobIfAbsent (blobs : List BlobRow) (h : String) (c : List Nat) : List BlobRow :=
  if blobs.any (fun b => b.content_hash = h) then blobs else blobs ++ [⟨h, c⟩]

/-- `INSERT OR IGNORE INTO assets` (UNIQUE `url`, UNIQUE `content_hash`). -/
def insertAssetIfAbsent (assets : List AssetRow) (row : AssetRow) : List AssetRow :=
  if assets.any (fun a => a.url = row.url) ∨ assets.any (fun a => a.content_hash = row.content_hash)
  then assets
  else assets ++ [row]

inductive DlResult where
  | downloaded
  | skipped
  | failed
deriving Repr, DecidableEq

/-- `download_and_save_asset(asset, domain, session)`.  `response` is the
downloaded body: `none` models a non-200 status, timeout, or network error;
the empty list models an empty body (both counted `failed`).  A URL whose
`urlparse` raises is caught by the outer `except` as `failed` with no store
change. -/
def download_and_save_asset (sha : List Nat → String) (store : Store) (asset : AssetRef)
    (domain : String) (response : Option (List Nat)) : Store × DlResult :=
  let url := pyStrip asset.url
  if url = "" then (store, .failed)
  else
    match response with
    | none => (store, .failed)
    | some content =>
      if content = [] then (store, .failed)
      else
        let h := sha content
        if store.downloadedHashes.contains h then (store, .skipped)
        else
          match pyUrlparse url with
          | none => (store, .failed)
          | some parsed =>
            let path := if parsed.path = "" then "/" else parsed.path
            let blobs := insertBlobIfAbsent store.blobs h content
            let assets := insertAssetIfAbsent store.assets
              ⟨url, domain, path, asset.type, h, content.length, asset.mime⟩
            (⟨blobs, assets, store.downloadedHashes ++ [h]⟩, .downloaded)

/-- Referential integrity: every asset row's `content_hash` has a backing
blob row. -/
def storeInv (store : Store) : Prop :=
  ∀ a ∈ store.assets, ∃ b ∈ store.blobs, b.content_hash = a.content_hash

end AssetExtractor

/-! ## `ProductionCrawler.fetch` (`src/crawler_production.py` lines 283–394)

One loop iteration issues exactly one `session.get`; the events function
gives the outcome of the request issued on each attempt index.  Sleeps are
not modelled (wall-clock time carries no claim). -/

namespace ProductionCrawler

/-- Outcome of one HTTP attempt.  For a `response`, `retryAfter` models the
`Retry-After` header of a 429: `none` = header absent (default `2**attempt`),
`some none` = non-numeric header (`int()` raises, re-raised by the
`except Exception` handler), `some (some n)` = numeric value `n`. -/
inductive FetchEvent where
  | response (status : Nat) (retryAfter : Option (Option Nat)) (html : String)
  | timeout
  | sslError
  | connectorError
  | clientError
  | unexpectedError
deriving Repr, DecidableEq

structure FetchResult where
  html : Option String
  raised : Bool
  requests : Nat
  saves : List (String × Nat)
  errlog : List String
deriving Repr, DecidableEq

/-- The retry loop of `fetch`: `remaining` counts loop iterations left
(initially `max_retries`), `attempt` is the current index.  On the last
iteration the `if attempt < max_retries - 1: continue` guard and the natural
end of the loop body coincide, so both are the plain recursion here. -/
def fetchLoop (events : Nat → FetchEvent) (url : String) (attempt : Nat) :
    Nat → FetchResult
  | 0 => ⟨none, false, 0, [], ["MAX_RETRIES_EXCEEDED"]⟩
  | remaining + 1 =>
    match events attempt with
    | .response status retryAfter html =>
      if status = 200 then ⟨some html, false, 1, [(url, 200)], []⟩
      else if status = 429 then
        match retryAfter with
        | some none => ⟨none, true, 1, [], ["UNEXPECTED_ERROR"]⟩
        | _ =>
          let r := fetchLoop events url (attempt + 1) remaining
          ⟨r.html, r.raised, r.requests + 1, r.saves, r.errlog⟩
      else if 500 ≤ status then
        let r := fetchLoop events url (attempt + 1) remaining
        ⟨r.html, r.raised, r.requests + 1, r.saves, r.errlog⟩
      else if status = 301 ∨ status = 302 ∨ status = 303 ∨ status = 307 ∨ status = 308 then
        ⟨some html, false, 1, [(url, status)], []⟩
      else if status = 404 then ⟨none, false, 1, [], ["HTTP_404"]⟩
      else if status = 403 then ⟨none, false, 1, [], ["HTTP_403_FORBIDDEN"]⟩
      else ⟨none, false, 1, [], []⟩
    | .timeout =>
      let r := fetchLoop events url (attempt + 1) remaining
      ⟨r.html, r.raised, r.requests + 1, r.saves, "TIMEOUT" :: r.errlog⟩
    | .sslError => ⟨none, false, 1, [], ["SSL_ERROR"]⟩
    | .connectorError =>
      let r := fetchLoop events url (attempt + 1) remaining
      ⟨r.html, r.raised, r.requests + 1, r.saves, "CONNECTION_ERROR" :: r.errlog⟩
    | .clientError => ⟨none, false, 1, [], ["CLIENT_ERROR"]⟩
    | .unexpectedError => ⟨none, true, 1, [], ["UNEXPECTED_ERROR"]⟩

/-- `fetch(session, url)` with budget `max_retries`. -/
def fetch (events : Nat → FetchEvent) (url : String) (maxRetries : Nat) : FetchResult :=
  fetchLoop events url 0 maxRetries

/-! ### `parse_links` and the main loop of `run`

The web is abstracted as `web : String → Option (List String)`: `none` means
`fetch` returned `None` (no page saved); `some hrefs` means the fetch
succeeded and saved the page, and BeautifulSoup finds the given `a[href]`
attribute values.  (A page whose HTML is falsy parses to no links; that is
the `some []` case, observationally identical.) -/

/-- The body of `parse_links`: its `try` wraps the whole loop, so one
propagated `urljoin` error discards all links (`return []`). -/
def parseLinksLoop (baseUrl domain : String) : List String → Option (List String)
  | [] => some []
  | href :: rest =>
    let h := pyStrip href
    if h = "" then parseLinksLoop baseUrl domain rest
    else
      match pyUrljoin baseUrl h with
      | none => none
      | some full =>
        let n := URLNormalizer.normalize full
        match parseLinksLoop baseUrl domain rest with
        | none => none
        | some ls => some (if URLNormalizer.validate n domain then n :: ls else ls)

/-- `parse_links(html, base_url)` over the extracted `href` values. -/
def parse_links (hrefs : List String) (baseUrl domain : String) : List String :=
  (parseLinksLoop baseUrl domain hrefs).getD []

structure CrawlState where
  queue : List String
  visited : List String
  pages : List String
  fetched : List String
deriving Repr, DecidableEq

/-- `save_page` with `INSERT OR REPLACE` on the UNIQUE `url` column: one row
per URL (rows are projected to their URLs, the datum the claims concern). -/
def upsertPage (pages : List String) (url : String) : List String :=
  if pages.contains url then pages else pages ++ [url]

/-- The `while self.queue and len(self.visited) < self.max_pages` loop of
`run`, fuelled (the fuel bounds loop iterations; any fuel reaching the
natural exit gives the completed run). -/
def runLoop (web : String → Option (List String)) (domain : String) (maxPages : Nat) :
    Nat → CrawlState → CrawlState
  | 0, st => st
  | fuel + 1, st =>
    if st.queue = [] ∨ ¬ st.visited.length < maxPages then st
    else
      match st.queue with
      | [] => st
      | url :: rest =>
        let nu := URLNormalizer.normalize url
        if nu ∈ st.visited then
          runLoop web domain maxPages fuel ⟨rest, st.visited, st.pages, st.fetched⟩
        else
          let visited := st.visited ++ [nu]
          match web nu with
          | none =>
            runLoop web domain maxPages fuel ⟨rest, visited, st.pages, st.fetched ++ [nu]⟩
          | some hrefs =>
            let pages := upsertPage st.pages nu
            let links := parse_links hrefs nu domain
            let queue := links.foldl (fun q l => if l ∈ visited ∨ l ∈ q then q else q ++ [l]) rest
            runLoop web domain maxPages fuel ⟨queue, visited, pages, st.fetched ++ [nu]⟩

/-- A whole `run`: domain is `urlparse(start_url).netloc`, the queue starts
as `[start_url]` and everything else empty.  (`__init__` reads the netloc
with `urlparse`, which only raises for bracket-broken netlocs; such a
crawler cannot be constructed, hence the `Option`.) -/
def run (web : String → Option (List String)) (start : String) (maxPages fuel : Nat) :
    Option CrawlState :=
  (pyUrlparse start).map fun pr =>
    runLoop web pr.netloc maxPages fuel ⟨[start], [], [], []⟩

end ProductionCrawler

/-! ## `ProfessionalArchiver` (`src/smart_archiver_v4.py`)

The archive loop with its visited set and page-table writes.  Asset
downloading (`_download_assets`) only touches the asset tables and is
outside this model's claims; file-system writes are at the boundary.
CDX timestamps are assumed fresh per capture (second-resolution collisions
are not modelled), so only the UNIQUE `payload_digest` constraint can fire
on `cdx_index`. -/

namespace ProfessionalArchiver

/-- Outcome of `session.get` inside `_fetch_page`: a raised client error
(with its logged kind) or a response carrying what `_process_page` reads. -/
inductive V4Response where
  | failure (kind : String)
  | response (status : Nat) (contentType : String) (htmlDigest : String)
      (anchors : List String)
deriving Repr, DecidableEq

structure ArchState where
  queue : List (String × Nat)
  visited : List (String × Nat)
  pagesDb : List String
  cdxDigests : List String
  links : List (String × String)
  errlog : List (String × String)
  fetchTrace : List String
deriving Repr, DecidableEq

/-- `_is_same_domain(url)`. -/
def isSameDomain (domain url : String) : Bool :=
  match pyUrlparse url with
  | some parsed => pyLower parsed.netloc = domain
  | none => false

/-- The link-extraction loop of `_process_page`; its `try` stops at the
first propagated `urljoin` error, keeping the links found so far. -/
def extractPageLinks (domain url : String) (depth : Nat) (anchors : List String)
    (st : ArchState) : ArchState :=
  match anchors with
  | [] => st
  | a :: rest =>
    match pyUrljoin url a with
    | none => st
    | some href =>
      if isSameDomain domain href ∧ ¬ st.visited.any (fun v => v.1 = href) then
        extractPageLinks domain url depth rest
          { st with links := st.links ++ [(url, href)], queue := st.queue ++ [(href, depth + 1)] }
      else extractPageLinks domain url depth rest st

/-- `_fetch_page` followed by `_process_page` (cdx + pages inserts, then
link extraction).  A duplicate `payload_digest` aborts at the cdx insert; a
duplicate page URI aborts after it (the cdx row stays in the open
transaction and is committed by the next commit on the shared
connection). -/
def fetchPage (web : String → V4Response) (domain : String) (st : ArchState)
    (url : String) (depth : Nat) : ArchState :=
  let st := { st with fetchTrace := st.fetchTrace ++ [url] }
  match web url with
  | .failure kind => { st with errlog := st.errlog ++ [(url, kind)] }
  | .response status contentType digest anchors =>
    if status = 500 then { st with errlog := st.errlog ++ [(url, "HTTP_500")] }
    else if 400 ≤ status then
      { st with errlog := st.errlog ++ [(url, "HTTP_" ++ toString status)] }
    else if status ≠ 200 then st
    else if ¬ lContainsSub (pyLowerL contentType.data) "text/html".data then st
    else if st.cdxDigests.contains digest then st
    else
      let st := { st with cdxDigests := st.cdxDigests ++ [digest] }
      if st.pagesDb.contains url then st
      else
        let st := { st with pagesDb := st.pagesDb ++ [url] }
        extractPageLinks domain url depth anchors st

/-- The `while self.queue and len(self.visited) < self.max_pages` loop of
`archive`, fuelled. -/
def archiveLoop (web : String → V4Response) (domain : String) (maxDepth maxPages : Nat) :
    Nat → ArchState → ArchState
  | 0, st => st
  | fuel + 1, st =>
    if st.queue = [] ∨ ¬ st.visited.length < maxPages then st
    else
      match st.queue with
      | [] => st
      | (url, depth) :: rest =>
        if st.visited.any (fun v => v.1 = url) ∨ maxDepth < depth then
          archiveLoop web domain maxDepth maxPages fuel { st with queue := rest }
        else
          let st := { st with queue := rest, visited := st.visited ++ [(url, depth)] }
          archiveLoop web domain maxDepth maxPages fuel (fetchPage web domain st url depth)

/-- One `archive()` run.  `__init__` sets `self.visited = {}` and
`self.queue = [(start_url, 0)]` unconditionally — no state is read back from
`pages` or `crawl_state` — while the database tables (here `priorPages`,
`priorCdx`) persist from previous runs of the same archive directory.
Sitemap URLs are appended at depth 1 before the loop
(`sitemap_urls[:max_pages]`, each `not in self.visited`, vacuously true). -/
def archive (web : String → V4Response) (start : String)
    (priorPages priorCdx : List String) (sitemapUrls : List String)
    (maxDepth maxPages fuel : Nat) : Option ArchState :=
  (pyUrlparse start).map fun pr =>
    let domain := pyLower pr.netloc
    let queue0 := [(start, 0)] ++ (sitemapUrls.take maxPages).map (fun u => (u, 1))
    archiveLoop web domain maxDepth maxPages fuel
      ⟨queue0, [], priorPages, priorCdx, [], [], []⟩

end ProfessionalArchiver

/-! ## Theorems: fetch retry bound and the content-addressed store -/

/-- Each iteration of the retry loop issues exactly one request, and there
are at most `remaining` iterations. -/
theorem fetchLoop_requests_le (events : Nat → ProductionCrawler.FetchEvent) (url : String) :
    ∀ remaining attempt,
      (ProductionCrawler.fetchLoop events url attempt remaining).requests ≤ remaining := by
  intro remaining
  induction remaining with
  | zero => intro attempt; simp [ProductionCrawler.fetchLoop]
  | succ n ih =>
    intro attempt
    simp only [ProductionCrawler.fetchLoop]
    cases events attempt with
    | response status retryAfter html =>
      by_cases h200 : status = 200
      · simp [h200]
      · by_cases h429 : status = 429
        · cases retryAfter with
          | none => simp [h200, h429]; exact ih _
          | some ra =>
            cases ra with
            | none => simp [h200, h429]
            | some v => simp [h200, h429]; exact ih _
        · by_cases h5xx : 500 ≤ status
          · simp [h200, h429, h5xx]; exact ih _
          · by_cases hredir : status = 301 ∨ status = 302 ∨ status = 303 ∨ status = 307 ∨ status = 308
            · simp [h200, h429, h5xx, hredir]
            · by_cases h404 : status = 404
              · simp [h200, h429, h5xx, hredir, h404]
              · by_cases h403 : status = 403
                · simp [h200, h429, h5xx, hredir, h404, h403]
                · simp [h200, h429, h5xx, hredir, h404, h403]
    | timeout => simp; exact ih _
    | sslError => simp
    | connectorError => simp; exact ih _
    | clientError => simp
    | unexpectedError => simp

/-- C6: a single call to `fetch` performs at most `max_retries` HTTP request
attempts, for every possible sequence of attempt outcomes. -/
theorem fetch_requests_le_budget (events : Nat → ProductionCrawler.FetchEvent)
    (url : String) (maxRetries : Nat) :
    (ProductionCrawler.fetch events url maxRetries).requests ≤ maxRetries :=
  fetchLoop_requests_le events url maxRetries 0

namespace AssetExtractor

theorem insertBlob_mem {blobs : List BlobRow} {b : BlobRow} (h : b ∈ blobs)
    (hash : String) (c : List Nat) : b ∈ insertBlobIfAbsent blobs hash c := by
  unfold insertBlobIfAbsent
  split
  · exact h
  · exact List.mem_append_left _ h

theorem insertBlob_has_hash (blobs : List BlobRow) (hash : String) (c : List Nat) :
    ∃ b ∈ insertBlobIfAbsent blobs hash c, b.content_hash = hash := by
  unfold insertBlobIfAbsent
  split
  · next hany =>
    rcases List.any_eq_true.mp hany with ⟨b, hb, hbh⟩
    exact ⟨b, hb, of_decide_eq_true hbh⟩
  · exact ⟨⟨hash, c⟩, List.mem_append_right _ (List.mem_singleton_self _), rfl⟩

/-- C3: every write path of `download_and_save_asset` preserves referential
integrity — each asset row keeps a backing blob row (the blob insert
precedes the asset insert in the same transaction). -/
theorem download_preserves_storeInv (sha : List Nat → String) (store : Store)
    (asset : AssetRef) (domain : String) (response : Option (List Nat))
    (hinv : storeInv store) :
    storeInv (download_and_save_asset sha store asset domain response).1 := by
  unfold download_and_save_asset
  by_cases h1 : pyStrip asset.url = ""
  · rw [if_pos h1]; exact hinv
  · rw [if_neg h1]
    cases response with
    | none => exact hinv
    | some content =>
      dsimp only
      by_cases h2 : content = []
      · rw [if_pos h2]; exact hinv
      · rw [if_neg h2]
        by_cases h3 : store.downloadedHashes.contains (sha content) = true
        · rw [if_pos h3]; exact hinv
        · rw [if_neg h3]
          cases hparse : pyUrlparse (pyStrip asset.url) with
          | none => exact hinv
          | some parsed =>
            dsimp only
            intro a ha
            dsimp only at ha
            have hfin : ∀ row : AssetRow, a ∈ insertAssetIfAbsent store.assets row →
                row.content_hash = sha content →
                ∃ b ∈ insertBlobIfAbsent store.blobs (sha content) content,
                  b.content_hash = a.content_hash := by
              intro row haa hrh
              unfold insertAssetIfAbsent at haa
              split at haa
              · rcases hinv a haa with ⟨b, hb, hbh⟩
                exact ⟨b, insertBlob_mem hb _ _, hbh⟩
              · rcases List.mem_append.mp haa with hold | hnew
                · rcases hinv a hold with ⟨b, hb, hbh⟩
                  exact ⟨b, insertBlob_mem hb _ _, hbh⟩
                · rcases List.mem_singleton.mp hnew with rfl
                  rcases insertBlob_has_hash store.blobs (sha content) content with ⟨b, hb, hbh⟩
                  exact ⟨b, hb, by rw [hbh, hrh]⟩
            split at ha
            · exact hfin _ ha rfl
            · exact hfin _ ha rfl

/-- C2 (amended): when two assets with identical bytes are saved into a
fresh store, the first is downloaded and the second is skipped by the
in-memory hash check, leaving exactly one asset row and one blob row —
regardless of the hash function and of the two (distinct) URLs. -/
theorem identical_content_second_asset_skipped (sha : List Nat → String)
    (a1 a2 : AssetRef) (domain1 domain2 : String) (c : List Nat)
    (_hne : a1.url ≠ a2.url)
    (hc : c ≠ [])
    (hu1 : pyStrip a1.url ≠ "")
    (hu2 : pyStrip a2.url ≠ "")
    (hp1 : (pyUrlparse (pyStrip a1.url)).isSome = true) :
    let r1 := download_and_save_asset sha ⟨[], [], []⟩ a1 domain1 (some c)
    let r2 := download_and_save_asset sha r1.1 a2 domain2 (some c)
    r1.2 = DlResult.downloaded ∧ r2.2 = DlResult.skipped ∧
      r2.1.assets.length = 1 ∧ r2.1.blobs.length = 1 := by
  intro r1 r2
  rcases Option.isSome_iff_exists.mp hp1 with ⟨pr1, hpr1⟩
  have hr1 : r1 = (⟨[⟨sha c, c⟩],
      [⟨pyStrip a1.url, domain1, (if pr1.path = "" then "/" else pr1.path), a1.type,
        sha c, c.length, a1.mime⟩], [sha c]⟩, DlResult.downloaded) := by
    show download_and_save_asset sha ⟨[], [], []⟩ a1 domain1 (some c) = _
    unfold download_and_save_asset
    rw [if_neg hu1]
    dsimp only
    rw [if_neg (by simpa using hc)]
    rw [if_neg (by simp)]
    rw [hpr1]
    simp [insertBlobIfAbsent, insertAssetIfAbsent]
  have hr2 : r2 = (r1.1, DlResult.skipped) := by
    show download_and_save_asset sha r1.1 a2 domain2 (some c) = _
    unfold download_and_save_asset
    rw [if_neg hu2]
    dsimp only
    rw [if_neg (by simpa using hc)]
    rw [if_pos]
    rw [hr1]
    simp
  refine ⟨by rw [hr1], by rw [hr2], ?_, ?_⟩ <;> rw [hr2, hr1] <;> rfl

end AssetExtractor

/-! ## Theorems: the crawl loop, robots stub, v4 resume, and concrete
counterexamples -/

theorem nodup_append_singleton {l : List String} {a : String} (h : l.Nodup) (ha : a ∉ l) :
    (l ++ [a]).Nodup := by
  refine List.Nodup.append h (List.nodup_singleton _) ?_
  intro x hx hy
  rw [List.mem_singleton] at hy
  subst hy
  exact ha hx

theorem upsertPage_nodup {pages : List String} (h : pages.Nodup) (url : String) :
    (ProductionCrawler.upsertPage pages url).Nodup := by
  unfold ProductionCrawler.upsertPage
  split
  · exact h
  · next hnc => exact nodup_append_singleton h (by simpa using hnc)

/-- Invariant of the main crawl loop: the visited set stays duplicate-free,
every fetched URL was first added to the visited set, and hence the fetch
trace and the page table stay duplicate-free. -/
theorem runLoop_inv (web : String → Option (List String)) (domain : String) (maxPages : Nat) :
    ∀ fuel st, st.visited.Nodup → st.fetched.Nodup → st.pages.Nodup →
      (∀ u ∈ st.fetched, u ∈ st.visited) →
      ((ProductionCrawler.runLoop web domain maxPages fuel st).fetched.Nodup ∧
        (ProductionCrawler.runLoop web domain maxPages fuel st).pages.Nodup) := by
  intro fuel
  induction fuel with
  | zero => intro st _ h2 h3 _; exact ⟨h2, h3⟩
  | succ n ih =>
    intro st h1 h2 h3 h4
    obtain ⟨queue, visited, pages, fetched⟩ := st
    dsimp only at h1 h2 h3 h4
    cases queue with
    | nil =>
      rw [ProductionCrawler.runLoop, if_pos (Or.inl rfl)]
      exact ⟨h2, h3⟩
    | cons url rest =>
      rw [ProductionCrawler.runLoop]
      by_cases hstop : (url :: rest : List String) = [] ∨ ¬ visited.length < maxPages
      · rw [if_pos hstop]
        exact ⟨h2, h3⟩
      · rw [if_neg hstop]
        dsimp only
        by_cases hv : URLNormalizer.normalize url ∈ visited
        · rw [if_pos hv]
          exact ih _ h1 h2 h3 h4
        · rw [if_neg hv]
          have hnf : URLNormalizer.normalize url ∉ fetched := fun hmem => hv (h4 _ hmem)
          have hvis : (visited ++ [URLNormalizer.normalize url]).Nodup :=
            nodup_append_singleton h1 hv
          have hfet : (fetched ++ [URLNormalizer.normalize url]).Nodup :=
            nodup_append_singleton h2 hnf
          have hsub : ∀ u ∈ fetched ++ [URLNormalizer.normalize url],
              u ∈ visited ++ [URLNormalizer.normalize url] := by
            intro u hu
            rcases List.mem_append.mp hu with h | h
            · exact List.mem_append_left _ (h4 _ h)
            · exact List.mem_append_right _ h
          cases hw : web (URLNormalizer.normalize url) with
          | none => exact ih _ hvis hfet h3 hsub
          | some hrefs => exact ih _ hvis hfet (upsertPage_nodup h3 _) hsub

/-- C4 (amended): in any completed or partial run, every URL string is
fetched at most once and the page table holds at most one row per URL
string.  (Rows whose distinct URL strings normalize to the same canonical
URL are still possible; see the counterexample below.) -/
theorem run_fetches_each_url_at_most_once (web : String → Option (List String))
    (start : String) (maxPages fuel : Nat) (st' : ProductionCrawler.CrawlState)
    (h : ProductionCrawler.run web start maxPages fuel = some st') :
    st'.fetched.Nodup ∧ st'.pages.Nodup := by
  unfold ProductionCrawler.run at h
  cases hp : pyUrlparse start with
  | none => rw [hp] at h; simp at h
  | some pr =>
    rw [hp] at h
    simp only [Option.map_some', Option.some.injEq] at h
    subst h
    exact runLoop_inv web pr.netloc maxPages fuel ⟨[start], [], [], []⟩
      (List.nodup_nil) (List.nodup_nil) (List.nodup_nil) (by intro u hu; cases hu)

/-- Witness for `run_fetches_each_url_at_most_once` at a concrete run. -/
theorem run_fetches_each_url_at_most_once_witness :
    ∃ st', ProductionCrawler.run (fun _ => none) "http://w.test/" 5 3 = some st' ∧
      st'.fetched.Nodup ∧ st'.pages.Nodup := by
  refine ⟨ProductionCrawler.runLoop (fun _ => none) "w.test" 5 3 ⟨["http://w.test/"], [], [], []⟩,
    by decide, ?_⟩
  exact run_fetches_each_url_at_most_once (fun _ => none) "http://w.test/" 5 3 _ (by decide)

/-- Concrete web for the C4 counterexample: the crawl of `http:example.com`
discovers the link `http://example.com/`. -/
def demoWebC4 : String → Option (List String) := fun u =>
  if u = "http://example.com" then some ["http://example.com/"]
  else if u = "http://example.com/" then some [] else none

/-- C4 counterexample: a completed run (empty final queue) whose page table
holds two distinct URLs that normalize to the same canonical URL — the start
URL `http:example.com` normalizes to `http://example.com`, which is not a
fixed point of `normalize`. -/
theorem run_pages_normalize_collision :
    (ProductionCrawler.run demoWebC4 "http:example.com" 50 10).map
        (fun st => (st.pages, st.queue)) =
      some (["http://example.com", "http://example.com/"], []) ∧
    URLNormalizer.normalize "http://example.com" =
      URLNormalizer.normalize "http://example.com/" ∧
    "http://example.com" ≠ "http://example.com/" :=
  ⟨by decide, by decide, by decide⟩

/-- C1: `RobotsCompliance.can_fetch` returns `True` for every URL — the
Disallow rules are never consulted (the source comment says "Simplified -
respect Disallow in full implementation"), so a crawl gated on it fetches
disallowed URLs. -/
theorem can_fetch_always_true (url : String) :
    RobotsCompliance.can_fetch url = true := by
  unfold RobotsCompliance.can_fetch
  cases pyUrlparse url <;> rfl

/-- Concrete web for the C7 theorem: every request fails with a connection
error (any response shape exhibits the same re-fetch). -/
def demoWebC7 : String → ProfessionalArchiver.V4Response := fun _ =>
  ProfessionalArchiver.V4Response.failure "CONNECTION_ERROR"

/-- C7: `archive()` starts with `visited = {}` and never reads `pages` or
`crawl_state` back, so a re-run against a database whose page table already
contains the start URL issues an HTTP request for it again. -/
theorem archive_refetches_recorded_page :
    (ProfessionalArchiver.archive demoWebC7 "https://site.test/" ["https://site.test/"] []
        [] 5 500 10).map ProfessionalArchiver.ArchState.fetchTrace =
      some ["https://site.test/"] := by decide

/-- C5 counterexample: `normalize` is not idempotent — `http:example.com`
(scheme with a relative path, no authority marker) normalizes to
`http://example.com`, whose second normalization appends a slash. -/
theorem normalize_not_idempotent :
    URLNormalizer.normalize (URLNormalizer.normalize "http:example.com") ≠
      URLNormalizer.normalize "http:example.com" := by decide

/-- C8 counterexample: `normalize` does not strip the `page=1` pagination
marker. -/
theorem normalize_keeps_page_eq_one :
    URLNormalizer.normalize "http://example.com/list?page=1" =
        "http://example.com/list?page=1" ∧
      URLNormalizer.normalize "http://example.com/list?page=1" ≠
        "http://example.com/list" :=
  ⟨by decide, by decide⟩

/-- Demonstration hash for the concrete store runs (every store theorem is
proved for all hash functions; a concrete one is needed to evaluate). -/
def demoSha : List Nat → String := fun c => String.intercalate "," (c.map toString)

/-- C2 counterexample: downloading two assets with identical bytes at two
different URLs into a fresh store leaves ONE asset record (the second
download is skipped by the hash check), not the two records the claim
requires. -/
theorem identical_bytes_one_asset_record :
    (let s1 := AssetExtractor.download_and_save_asset demoSha ⟨[], [], []⟩
        ⟨"https://a.test/img1.png", "image", "image/png"⟩ "a.test" (some [1, 2, 3])
     let s2 := AssetExtractor.download_and_save_asset demoSha s1.1
        ⟨"https://a.test/img2.png", "image", "image/png"⟩ "a.test" (some [1, 2, 3])
     (s2.1.assets.length, s2.1.blobs.length, s2.2)) =
      (1, 1, AssetExtractor.DlResult.skipped) ∧ (1 : Nat) ≠ 2 :=
  ⟨by decide, by decide⟩

/-- Witness for `identical_content_second_asset_skipped` at concrete
inputs. -/
theorem identical_content_second_asset_skipped_witness :
    ("https://a.test/img1.png" : String) ≠ "https://a.test/img2.png" ∧
      ([1, 2, 3] : List Nat) ≠ [] ∧
      pyStrip "https://a.test/img1.png" ≠ "" ∧
      pyStrip "https://a.test/img2.png" ≠ "" ∧
      (pyUrlparse (pyStrip "https://a.test/img1.png")).isSome = true ∧
      (let r1 := AssetExtractor.download_and_save_asset demoSha ⟨[], [], []⟩
          ⟨"https://a.test/img1.png", "image", "image/png"⟩ "a.test" (some [1, 2, 3])
       let r2 := AssetExtractor.download_and_save_asset demoSha r1.1
          ⟨"https://a.test/img2.png", "image", "image/png"⟩ "a.test" (some [1, 2, 3])
       r1.2 = AssetExtractor.DlResult.downloaded ∧ r2.2 = AssetExtractor.DlResult.skipped ∧
         r2.1.assets.length = 1 ∧ r2.1.blobs.length = 1) :=
  ⟨by decide, by decide, by decide, by decide, by decide,
    AssetExtractor.identical_content_second_asset_skipped demoSha
      ⟨"https://a.test/img1.png", "image", "image/png"⟩
      ⟨"https://a.test/img2.png", "image", "image/png"⟩ "a.test" "a.test" [1, 2, 3]
      (by decide) (by decide) (by decide) (by decide) (by decide)⟩

/-- Witness for `download_preserves_storeInv` at a concrete store and
asset. -/
theorem download_preserves_storeInv_witness :
    AssetExtractor.storeInv ⟨[], [], []⟩ ∧
      AssetExtractor.storeInv
        (AssetExtractor.download_and_save_asset demoSha ⟨[], [], []⟩
          ⟨"https://a.test/img1.png", "image", "image/png"⟩ "a.test" (some [1, 2, 3])).1 :=
  ⟨(by intro a ha; cases ha),
    AssetExtractor.download_preserves_storeInv demoSha ⟨[], [], []⟩
      ⟨"https://a.test/img1.png", "image", "image/png"⟩ "a.test" (some [1, 2, 3])
      (by intro a ha; cases ha)⟩

/-- C9 counterexample: an `img` whose `src` is `mailto:x@y` is extracted
as-is — its resolved URL has scheme `mailto`, one of the pseudo-URL schemes
the claim says are filtered out. -/
theorem extract_assets_keeps_mailto :
    AssetExtractor.extract_assets [Tag.img (some "mailto:x@y")] "https://example.com/" =
        some [⟨"mailto:x@y", "image", "application/octet-stream"⟩] ∧
      (pyUrlparse "mailto:x@y").map ParseResult.scheme = some "mailto" :=
  ⟨by decide, by decide⟩

/-! ## Round trip of `quote_plus` through `parse_qsl`'s unquoting

`parse_qsl` applies `.replace('+', ' ')` followed by `unquote` to each
name and value; `urlencode` produced them with `quote_plus`.  This section
proves the composition is the identity, the key fact behind the
idempotence and permutation-invariance of `normalize`'s query handling. -/

theorem char_toNat_inj {a b : Char} (h : a.toNat = b.toNat) : a = b :=
  Char.eq_of_val_eq (UInt32.ext h)

theorem char_toNat_ofNat {n : Nat} (h : n < 0xD800) : (Char.ofNat n).toNat = n := by
  have hv : Nat.isValidChar n := Or.inl h
  unfold Char.ofNat
  rw [dif_pos hv]
  unfold Char.ofNatAux
  show (UInt32.ofNat' n _).toNat = n
  simp [UInt32.ofNat', UInt32.toNat, Nat.mod_eq_of_lt (by omega : n < 2 ^ 32)]

theorem char_toNat_lt (c : Char) : c.toNat < 0x110000 := by
  rcases char_toNat_valid c with h | ⟨_, h⟩ <;> omega

/-- The uniform per-byte action of `quote_plus`: space to `+`, safe bytes
literal, everything else `%XX`. -/
def qpByte (b : Nat) : List Char :=
  if b = 32 then ['+'] else if alwaysSafeByte b then [Char.ofNat b] else percentEncByte b

/-- The per-byte action after `parse_qsl`'s `.replace('+', ' ')`. -/
def qpsByte (b : Nat) : List Char :=
  if b = 32 then [' '] else if alwaysSafeByte b then [Char.ofNat b] else percentEncByte b

theorem lconcatMap_congr {f g : α → List β} : ∀ {l : List α}, (∀ a ∈ l, f a = g a) →
    lconcatMap f l = lconcatMap g l
  | [], _ => rfl
  | a :: l, h => by
    rw [lconcatMap, lconcatMap, h a (List.mem_cons_self a l),
      lconcatMap_congr (fun x hx => h x (List.mem_cons_of_mem a hx))]

theorem map_lconcatMap (g : β → γ) (f : α → List β) :
    ∀ l : List α, (lconcatMap f l).map g = lconcatMap (fun a => (f a).map g) l
  | [] => rfl
  | a :: l => by rw [lconcatMap, lconcatMap, List.map_append, map_lconcatMap]

theorem mem_lconcatMap {f : α → List β} {c : β} :
    ∀ {l : List α}, c ∈ lconcatMap f l ↔ ∃ a ∈ l, c ∈ f a
  | [] => by simp [lconcatMap]
  | a :: l => by
    rw [lconcatMap, List.mem_append, mem_lconcatMap]
    simp

theorem lconcatMap_length {f : α → List β} :
    ∀ l : List α, (lconcatMap f l).length = (l.map (fun a => (f a).length)).sum
  | [] => rfl
  | a :: l => by rw [lconcatMap, List.length_append, lconcatMap_length]; simp

theorem utf8EncodeNat_lt_256 (c : Char) : ∀ b ∈ utf8EncodeNat c.toNat, b < 256 := by
  have h4 := char_toNat_lt c
  intro b hb
  unfold utf8EncodeNat at hb
  split at hb
  · simp only [List.mem_singleton] at hb
    omega
  · split at hb
    · simp only [List.mem_cons, List.not_mem_nil, or_false] at hb
      rcases hb with h | h <;> omega
    · split at hb
      · simp only [List.mem_cons, List.not_mem_nil, or_false] at hb
        rcases hb with h | h | h <;> omega
      · simp only [List.mem_cons, List.not_mem_nil, or_false] at hb
        rcases hb with h | h | h | h <;> omega

theorem utf8Encode_lt_256 : ∀ {l : List Char}, ∀ b ∈ utf8Encode l, b < 256
  | [], b, hb => by cases hb
  | c :: l, b, hb => by
    rw [utf8Encode] at hb
    rcases List.mem_append.mp hb with h | h
    · exact utf8EncodeNat_lt_256 c b h
    · exact utf8Encode_lt_256 b h

theorem mem32_utf8EncodeNat {c : Char} : 32 ∈ utf8EncodeNat c.toNat ↔ c = ' ' := by
  constructor
  · intro h
    unfold utf8EncodeNat at h
    split at h
    · simp only [List.mem_singleton] at h
      exact char_toNat_inj (by rw [← h]; decide)
    · split at h
      · simp only [List.mem_cons, List.not_mem_nil, or_false] at h
        rcases h with h | h <;> omega
      · split at h
        · simp only [List.mem_cons, List.not_mem_nil, or_false] at h
          rcases h with h | h | h <;> omega
        · simp only [List.mem_cons, List.not_mem_nil, or_false] at h
          rcases h with h | h | h | h <;> omega
  · intro h
    subst h
    exact List.mem_singleton_self _

theorem mem32_utf8Encode {l : List Char} : 32 ∈ utf8Encode l ↔ ' ' ∈ l := by
  induction l with
  | nil => simp [utf8Encode]
  | cons c l ih =>
    rw [utf8Encode, List.mem_append, ih, List.mem_cons]
    constructor
    · rintro (h | h)
      · exact Or.inl (mem32_utf8EncodeNat.mp h).symm
      · exact Or.inr h
    · rintro (h | h)
      · exact Or.inl (mem32_utf8EncodeNat.mpr h.symm)
      · exact Or.inr h

theorem quote_from_bytes_eq (safe : List Nat) (bs : List Nat) :
    quote_from_bytes safe bs = lconcatMap (quoterByte safe) bs := by
  unfold quote_from_bytes
  split
  · subst bs; rfl
  · split
    · next hall =>
      rw [List.all_eq_true] at hall
      clear * - hall
      induction bs with
      | nil => rfl
      | cons b l ih =>
        rw [List.map_cons, lconcatMap, quoterByte,
          if_pos (hall b (List.mem_cons_self b l)),
          ih (fun x hx => hall x (List.mem_cons_of_mem b hx))]
        rfl
    · rfl

theorem pyQuotePlus_eq (s : List Char) :
    pyQuotePlus s = lconcatMap qpByte (utf8Encode s) := by
  unfold pyQuotePlus
  split
  · next hns =>
    have h32 : 32 ∉ utf8Encode s := by
      rw [mem32_utf8Encode]
      intro hsp
      exact hns (by simpa using hsp)
    unfold pyQuote
    split
    · next hse => subst hse; rfl
    · rw [quote_from_bytes_eq]
      apply lconcatMap_congr
      intro b hb
      have hb32 : b ≠ 32 := fun h => h32 (h ▸ hb)
      rw [quoterByte, qpByte, if_neg hb32]
      simp only [List.contains_nil, Bool.or_false]
  · unfold pyQuote
    split
    · next hse => subst hse; rfl
    · rw [quote_from_bytes_eq, map_lconcatMap]
      apply lconcatMap_congr
      intro b hb
      have hlt : b < 256 := utf8Encode_lt_256 b hb
      by_cases hb32 : b = 32
      · subst hb32
        rw [quoterByte, qpByte]
        norm_num [alwaysSafeByte]
      · rw [quoterByte, qpByte, if_neg hb32]
        have hsafe30 : ([(0x20 : Nat)].contains b) = false := by
          simp only [List.contains_cons, List.contains_nil, Bool.or_false]
          simpa using hb32
        rw [hsafe30, Bool.or_false]
        split
        · next hsb =>
          have hcb : (Char.ofNat b) ≠ ' ' := by
            intro h
            apply hb32
            have := char_toNat_ofNat (by omega : b < 0xD800)
            rw [h] at this
            simpa using this.symm
          simp [hcb]
        · next hsb =>
          have h1 : ('%' : Char) ≠ ' ' := by decide
          have hhex : ∀ n < 16, hexDigitUpper n ≠ ' ' := by
            intro n hn
            interval_cases n <;> decide
          rw [percentEncByte]
          simp only [List.map_cons, List.map_nil]
          rw [if_neg h1, if_neg (hhex _ (by omega)), if_neg (hhex _ (by omega))]

theorem plusToSpace_qpByte {b : Nat} (hb : b < 256) :
    plusToSpace (qpByte b) = qpsByte b := by
  unfold qpByte qpsByte
  by_cases h32 : b = 32
  · rw [if_pos h32, if_pos h32]; rfl
  · rw [if_neg h32, if_neg h32]
    split
    · next hsafe =>
      have : Char.ofNat b ≠ '+' := by
        intro h
        apply h32
        have ht := char_toNat_ofNat (by omega : b < 0xD800)
        rw [h] at ht
        have h43 : ('+' : Char).toNat = 43 := by decide
        rw [h43] at ht
        unfold alwaysSafeByte at hsafe
        simp only [Bool.or_eq_true, Bool.and_eq_true, decide_eq_true_eq] at hsafe
        omega
      simp [plusToSpace, this]
    · have h1 : ('%' : Char) ≠ '+' := by decide
      have hhex : ∀ n < 16, hexDigitUpper n ≠ '+' := by
        intro n hn
        interval_cases n <;> decide
      have hx1 : hexDigitUpper (b / 16) ≠ '+' := hhex (b / 16) (by omega)
      have hx2 : hexDigitUpper (b % 16) ≠ '+' := hhex (b % 16) (by omega)
      unfold plusToSpace percentEncByte
      simp only [List.map_cons, List.map_nil]
      rw [if_neg h1, if_neg hx1, if_neg hx2]

theorem plusToSpace_pyQuotePlus (s : List Char) :
    plusToSpace (pyQuotePlus s) = lconcatMap qpsByte (utf8Encode s) := by
  rw [pyQuotePlus_eq]
  unfold plusToSpace
  rw [map_lconcatMap]
  apply lconcatMap_congr
  intro b hb
  exact plusToSpace_qpByte (utf8Encode_lt_256 b hb)

theorem hexDigitUpper_toNat {n : Nat} (h : n < 16) :
    (hexDigitUpper n).toNat = if n < 10 then 0x30 + n else 0x41 + (n - 10) := by
  unfold hexDigitUpper
  split
  · rw [char_toNat_ofNat (show 0x30 + n < 0xD800 by omega)]
  · rw [char_toNat_ofNat (show 0x41 + (n - 10) < 0xD800 by omega)]

theorem hexVal?_hexDigitUpper {n : Nat} (h : n < 16) :
    hexVal? (hexDigitUpper n) = some n := by
  interval_cases n <;> decide

theorem qpsByte_ascii {b : Nat} (hb : b < 256) : ∀ c ∈ qpsByte b, isAscii c = true := by
  intro c hc
  unfold qpsByte at hc
  split at hc
  · simp only [List.mem_singleton] at hc
    subst hc; decide
  · split at hc
    · next hsafe =>
      simp only [List.mem_singleton] at hc
      subst hc
      unfold alwaysSafeByte at hsafe
      simp only [Bool.or_eq_true, Bool.and_eq_true, decide_eq_true_eq] at hsafe
      unfold isAscii
      rw [char_toNat_ofNat (by omega)]
      simp only [decide_eq_true_eq]
      omega
    · unfold percentEncByte at hc
      simp only [List.mem_cons, List.not_mem_nil, or_false] at hc
      rcases hc with rfl | rfl | rfl
      · decide
      · unfold isAscii
        rw [hexDigitUpper_toNat (by omega)]
        simp only [decide_eq_true_eq]
        split <;> omega
      · unfold isAscii
        rw [hexDigitUpper_toNat (by omega)]
        simp only [decide_eq_true_eq]
        split <;> omega

/-- The U+0025 `%` appears in `qpsByte b` exactly for non-safe non-space
bytes. -/
theorem percent_mem_qpsByte {b : Nat} (hb : b < 256) :
    '%' ∈ qpsByte b ↔ (b ≠ 32 ∧ alwaysSafeByte b = false) := by
  unfold qpsByte
  constructor
  · intro h
    split at h
    · simp only [List.mem_singleton] at h; cases h
    · split at h
      · next hsafe =>
        simp only [List.mem_singleton] at h
        exfalso
        have := char_toNat_ofNat (show b < 0xD800 by omega)
        rw [← h] at this
        unfold alwaysSafeByte at hsafe
        simp only [Bool.or_eq_true, Bool.and_eq_true, decide_eq_true_eq] at hsafe
        have h37 : b = 37 := by rw [← this]; decide
        omega
      · next h32 hsafe =>
        exact ⟨h32, Bool.eq_false_iff.mpr hsafe⟩
  · rintro ⟨h32, hsafe⟩
    rw [if_neg h32, if_neg (by simp [hsafe])]
    exact List.mem_cons_self _ _

theorem unquoteToBytesF_qps : ∀ (bytes : List Nat), (∀ b ∈ bytes, b < 256) →
    ∀ f, (lconcatMap qpsByte bytes).length ≤ f →
      unquoteToBytesF f (lconcatMap qpsByte bytes) = bytes := by
  intro bytes
  induction bytes with
  | nil =>
    intro _ f _
    cases f <;> rfl
  | cons b rest ih =>
    intro hlt f hf
    have hb : b < 256 := hlt b (List.mem_cons_self _ _)
    have hrest : ∀ x ∈ rest, x < 256 := fun x hx => hlt x (List.mem_cons_of_mem b hx)
    rw [lconcatMap] at hf ⊢
    by_cases h32 : b = 32
    · have hq : qpsByte b = [' '] := by unfold qpsByte; rw [if_pos h32]
      rw [hq] at hf ⊢
      simp only [List.length_append, List.length_cons, List.length_nil] at hf
      obtain ⟨f', rfl⟩ : ∃ f'', f = f'' + 1 := by
        cases f with
        | zero => omega
        | succ f'' => exact ⟨f'', rfl⟩
      show unquoteToBytesF (f' + 1) (' ' :: lconcatMap qpsByte rest) = _
      simp only [unquoteToBytesF]
      rw [if_neg (by decide : ¬ (' ' : Char) = '%')]
      rw [ih hrest f' (by omega)]
      rw [h32]
      congr 1
    · by_cases hsafe : alwaysSafeByte b = true
      · have hq : qpsByte b = [Char.ofNat b] := by
          unfold qpsByte
          rw [if_neg h32, if_pos hsafe]
        rw [hq] at hf ⊢
        simp only [List.length_append, List.length_cons, List.length_nil] at hf
        obtain ⟨f', rfl⟩ : ∃ f'', f = f'' + 1 := by
          cases f with
          | zero => omega
          | succ f'' => exact ⟨f'', rfl⟩
        show unquoteToBytesF (f' + 1) (Char.ofNat b :: lconcatMap qpsByte rest) = _
        simp only [unquoteToBytesF]
        have hnp : ¬ (Char.ofNat b = '%') := by
          intro h
          have ht := char_toNat_ofNat (show b < 0xD800 by omega)
          rw [h] at ht
          have h37 : ('%' : Char).toNat = 37 := by decide
          rw [h37] at ht
          unfold alwaysSafeByte at hsafe
          simp only [Bool.or_eq_true, Bool.and_eq_true, decide_eq_true_eq] at hsafe
          omega
        rw [if_neg hnp]
        rw [ih hrest f' (by omega)]
        rw [char_toNat_ofNat (show b < 0xD800 by omega)]
      · have hq : qpsByte b = percentEncByte b := by
          unfold qpsByte
          rw [if_neg h32, if_neg (by simpa using hsafe)]
        rw [hq] at hf ⊢
        unfold percentEncByte at hf ⊢
        simp only [List.length_append, List.length_cons, List.length_nil] at hf
        obtain ⟨f', rfl⟩ : ∃ f'', f = f'' + 1 := by
          cases f with
          | zero => omega
          | succ f'' => exact ⟨f'', rfl⟩
        show unquoteToBytesF (f' + 1)
            ('%' :: hexDigitUpper (b / 16) :: hexDigitUpper (b % 16) ::
              lconcatMap qpsByte rest) = _
        simp only [unquoteToBytesF, if_true]
        rw [hexVal?_hexDigitUpper (by omega), hexVal?_hexDigitUpper (by omega)]
        show (b / 16 * 16 + b % 16) :: unquoteToBytesF f' (lconcatMap qpsByte rest) = b :: rest
        rw [ih hrest f' (by omega)]
        congr 1
        omega

theorem unquoteRuns_ascii : ∀ (l acc : List Char), (∀ c ∈ l, isAscii c = true) →
    unquoteRuns acc l = utf8Dec (unquote_to_bytes (acc.reverse ++ l)) := by
  intro l
  induction l with
  | nil =>
    intro acc _
    rw [unquoteRuns, List.append_nil]
  | cons c l ih =>
    intro acc hascii
    rw [unquoteRuns, if_pos (hascii c (List.mem_cons_self _ _))]
    rw [ih (c :: acc) (fun x hx => hascii x (List.mem_cons_of_mem c hx))]
    rw [List.reverse_cons, List.append_assoc]
    rfl

theorem mem_utf8Encode_of_mem {c : Char} {s : List Char} (hc : c ∈ s) {b : Nat}
    (hb : b ∈ utf8EncodeNat c.toNat) : b ∈ utf8Encode s := by
  induction s with
  | nil => cases hc
  | cons c0 s0 ih =>
    rw [utf8Encode, List.mem_append]
    rcases List.mem_cons.mp hc with rfl | htail
    · exact Or.inl hb
    · exact Or.inr (ih htail)

theorem lconcatMap_qpsByte_ascii_id : ∀ (s : List Char),
    (∀ c ∈ s, c.toNat < 0x80) →
    (∀ b ∈ utf8Encode s, b = 32 ∨ alwaysSafeByte b = true) →
    lconcatMap qpsByte (utf8Encode s) = s := by
  intro s
  induction s with
  | nil => intro _ _; rfl
  | cons c rest ih =>
    intro hchars hall
    have hc80 : c.toNat < 0x80 := hchars c (List.mem_cons_self _ _)
    have henc : utf8EncodeNat c.toNat = [c.toNat] := by
      unfold utf8EncodeNat
      rw [if_pos hc80]
    rw [utf8Encode, henc]
    show qpsByte c.toNat ++ lconcatMap qpsByte (utf8Encode rest) = c :: rest
    rw [ih (fun x hx => hchars x (List.mem_cons_of_mem c hx))
      (fun b hb => hall b (by rw [utf8Encode, henc]; exact List.mem_cons_of_mem _ hb))]
    by_cases hc32 : c.toNat = 32
    · have hsp : c = ' ' := char_toNat_inj (by rw [hc32]; decide)
      subst hsp
      rfl
    · rcases hall c.toNat (by rw [utf8Encode, henc]; exact List.mem_cons_self _ _) with h | h
      · exact absurd h hc32
      · unfold qpsByte
        rw [if_neg hc32, if_pos h, char_ofNat_toNat]
        rfl

/-- Round trip: `unquote(s.replace('+', ' '))` of `quote_plus(x)` is `x`. -/
theorem unquote_plus_quote_plus (s : List Char) :
    pyUnquote (plusToSpace (pyQuotePlus s)) = s := by
  rw [plusToSpace_pyQuotePlus]
  unfold pyUnquote
  split
  · next hnp =>
    have hall : ∀ b ∈ utf8Encode s, b = 32 ∨ alwaysSafeByte b = true := by
      intro b hb
      by_contra hcon
      push_neg at hcon
      apply hnp
      simp only [List.contains_iff_exists_mem_beq]
      refine ⟨'%', ?_, by decide⟩
      rw [mem_lconcatMap]
      exact ⟨b, hb, (percent_mem_qpsByte (utf8Encode_lt_256 b hb)).mpr
        ⟨hcon.1, Bool.eq_false_iff.mpr hcon.2⟩⟩
    have hchars : ∀ c ∈ s, c.toNat < 0x80 := by
      intro c hc
      by_contra hbig
      push_neg at hbig
      have hleadmem : ∃ b ∈ utf8EncodeNat c.toNat, 0xC0 ≤ b ∧ b < 256 := by
        have h4 := char_toNat_lt c
        unfold utf8EncodeNat
        rw [if_neg (by omega)]
        split
        · exact ⟨0xC0 + c.toNat / 64, List.mem_cons_self _ _, by omega, by omega⟩
        · split
          · exact ⟨0xE0 + c.toNat / 4096, List.mem_cons_self _ _, by omega, by omega⟩
          · exact ⟨0xF0 + c.toNat / 262144, List.mem_cons_self _ _, by omega, by omega⟩
      rcases hleadmem with ⟨b, hbmem, hble, _⟩
      rcases hall b (mem_utf8Encode_of_mem hc hbmem) with h | h
      · omega
      · unfold alwaysSafeByte at h
        simp only [Bool.or_eq_true, Bool.and_eq_true, decide_eq_true_eq] at h
        omega
    exact lconcatMap_qpsByte_ascii_id s hchars hall
  · rw [unquoteRuns_ascii _ [] ?hascii]
    · rw [List.reverse_nil, List.nil_append]
      unfold unquote_to_bytes
      rw [unquoteToBytesF_qps (utf8Encode s) (fun b hb => utf8Encode_lt_256 b hb) _ (le_refl _)]
      exact utf8Dec_utf8Encode s
    · case hascii =>
      intro c hc
      rw [mem_lconcatMap] at hc
      rcases hc with ⟨b, hb, hcb⟩
      exact qpsByte_ascii (utf8Encode_lt_256 b hb) c hcb

/-! ## `parse_qsl` of `urlencode` output -/

theorem splitFirst_of_not_mem {sep : Char} : ∀ {l : List Char}, sep ∉ l →
    splitFirst sep l = none
  | [], _ => rfl
  | a :: l, h => by
    have hne : ¬ (a = sep) := fun hh => h (List.mem_cons.mpr (Or.inl hh.symm))
    have htail : sep ∉ l := fun hh => h (List.mem_cons_of_mem a hh)
    rw [splitFirst, if_neg hne, splitFirst_of_not_mem htail]
    rfl

theorem splitFirst_append {sep : Char} : ∀ {k : List Char}, sep ∉ k →
    ∀ v, splitFirst sep (k ++ sep :: v) = some (k, v)
  | [], _, v => by rw [List.nil_append, splitFirst, if_pos rfl]
  | a :: k, h, v => by
    have hne : ¬ (a = sep) := fun hh => h (List.mem_cons.mpr (Or.inl hh.symm))
    have htail : sep ∉ k := fun hh => h (List.mem_cons_of_mem a hh)
    rw [List.cons_append, splitFirst, if_neg hne, splitFirst_append htail v]
    rfl

theorem splitAll_of_not_mem {sep : Char} : ∀ {l : List Char}, sep ∉ l →
    splitAll sep l = [l]
  | [], _ => rfl
  | a :: l, h => by
    have hne : ¬ (a = sep) := fun hh => h (List.mem_cons.mpr (Or.inl hh.symm))
    have htail : sep ∉ l := fun hh => h (List.mem_cons_of_mem a hh)
    rw [splitAll, if_neg hne, splitAll_of_not_mem htail]

theorem splitAll_append {sep : Char} : ∀ {k : List Char}, sep ∉ k →
    ∀ v, splitAll sep (k ++ sep :: v) = k :: splitAll sep v
  | [], _, v => by rw [List.nil_append, splitAll, if_pos rfl]
  | a :: k, h, v => by
    have hne : ¬ (a = sep) := fun hh => h (List.mem_cons.mpr (Or.inl hh.symm))
    have htail : sep ∉ k := fun hh => h (List.mem_cons_of_mem a hh)
    rw [List.cons_append, splitAll, if_neg hne, splitAll_append htail v]

/-- The encoded form of one `(name, value)` pair inside `urlencode`'s
output. -/
def encodePair (kv : String × String) : List Char :=
  pyQuotePlus kv.1.data ++ '=' :: pyQuotePlus kv.2.data

/-- Flattening an association list with list values into its `(k, v)`
pairs, in order. -/
def flattenItems (items : List (String × List String)) : List (String × String) :=
  lconcatMap (fun kv => kv.2.map (fun v => (kv.1, v))) items

theorem pyUrlencodeDoseq_eq (items : List (String × List String)) :
    pyUrlencodeDoseq items = joinAmp ((flattenItems items).map encodePair) := by
  unfold pyUrlencodeDoseq flattenItems
  congr 1
  induction items with
  | nil => rfl
  | cons kv rest ih =>
    rw [lconcatMap, lconcatMap, List.map_append, ih, List.map_map]
    rfl

theorem mem_pyQuotePlus_ne (s : List Char) :
    ∀ c ∈ pyQuotePlus s, c ≠ '&' ∧ c ≠ '=' ∧ c ≠ '#' ∧ c ≠ '?' ∧
      isUnsafeUrlByte c = false := by
  intro c hc
  rw [pyQuotePlus_eq, mem_lconcatMap] at hc
  rcases hc with ⟨b, hb, hcb⟩
  have hblt : b < 256 := utf8Encode_lt_256 b hb
  unfold qpByte at hcb
  have main : c = '+' ∨ (∃ n, n < 256 ∧ alwaysSafeByte n = true ∧ c = Char.ofNat n) ∨
      c = '%' ∨ (∃ n, n < 16 ∧ c = hexDigitUpper n) := by
    split at hcb
    · simp only [List.mem_singleton] at hcb
      exact Or.inl hcb
    · split at hcb
      · next hsafe =>
        simp only [List.mem_singleton] at hcb
        exact Or.inr (Or.inl ⟨b, hblt, hsafe, hcb⟩)
      · unfold percentEncByte at hcb
        simp only [List.mem_cons, List.not_mem_nil, or_false] at hcb
        rcases hcb with rfl | rfl | rfl
        · exact Or.inr (Or.inr (Or.inl rfl))
        · exact Or.inr (Or.inr (Or.inr ⟨b / 16, by omega, rfl⟩))
        · exact Or.inr (Or.inr (Or.inr ⟨b % 16, by omega, rfl⟩))
  have toNatNe : ∀ m : Nat, c.toNat = m →
      m ≠ 38 ∧ m ≠ 61 ∧ m ≠ 35 ∧ m ≠ 63 ∧ m ≠ 9 ∧ m ≠ 13 ∧ m ≠ 10 →
        c ≠ '&' ∧ c ≠ '=' ∧ c ≠ '#' ∧ c ≠ '?' ∧ isUnsafeUrlByte c = false := by
    intro m hm hne
    refine ⟨?_, ?_, ?_, ?_, ?_⟩
    · intro h; subst h; exact hne.1 (by rw [← hm]; decide)
    · intro h; subst h; exact hne.2.1 (by rw [← hm]; decide)
    · intro h; subst h; exact hne.2.2.1 (by rw [← hm]; decide)
    · intro h; subst h; exact hne.2.2.2.1 (by rw [← hm]; decide)
    · unfold isUnsafeUrlByte
      simp only [decide_eq_false_iff_not]
      intro hor
      rcases hor with h | h | h
      · subst h; exact hne.2.2.2.2.1 (by rw [← hm]; decide)
      · subst h; exact hne.2.2.2.2.2.1 (by rw [← hm]; decide)
      · subst h; exact hne.2.2.2.2.2.2 (by rw [← hm]; decide)
  rcases main with rfl | ⟨n, hn, hsafe, rfl⟩ | rfl | ⟨n, hn, rfl⟩
  · exact toNatNe 43 (by decide) (by decide)
  · refine toNatNe n (char_toNat_ofNat (by omega)) ?_
    unfold alwaysSafeByte at hsafe
    simp only [Bool.or_eq_true, Bool.and_eq_true, decide_eq_true_eq] at hsafe
    omega
  · exact toNatNe 37 (by decide) (by decide)
  · refine toNatNe (if n < 10 then 0x30 + n else 0x41 + (n - 10))
      (hexDigitUpper_toNat hn) ?_
    split <;> omega

theorem encodePair_ne_nil (kv : String × String) : encodePair kv ≠ [] := by
  unfold encodePair
  intro h
  cases (List.append_eq_nil.mp h).2

theorem amp_not_mem_encodePair (kv : String × String) : '&' ∉ encodePair kv := by
  unfold encodePair
  intro h
  rcases List.mem_append.mp h with h | h
  · exact (mem_pyQuotePlus_ne _ _ h).1 rfl
  · rcases List.mem_cons.mp h with h | h
    · cases h
    · exact (mem_pyQuotePlus_ne _ _ h).1 rfl

theorem qslField_encodePair (kv : String × String) :
    qslField true (encodePair kv) = some kv := by
  unfold qslField
  rw [if_neg (encodePair_ne_nil kv)]
  have hsplit : splitFirst '=' (encodePair kv) =
      some (pyQuotePlus kv.1.data, pyQuotePlus kv.2.data) := by
    unfold encodePair
    exact splitFirst_append (fun h => (mem_pyQuotePlus_ne _ _ h).2.1 rfl) _
  rw [hsplit]
  simp only [ne_eq, or_true, if_true]
  rw [unquote_plus_quote_plus, unquote_plus_quote_plus]

theorem joinAmp_map_encodePair_ne_nil {kv : String × String}
    (rest : List (String × String)) :
    joinAmp (encodePair kv :: rest.map encodePair) ≠ [] := by
  cases rest with
  | nil => exact encodePair_ne_nil kv
  | cons kv2 rest2 =>
    show encodePair kv ++ '&' :: _ ≠ []
    intro h
    cases (List.append_eq_nil.mp h).2

/-- `parse_qsl(urlencode(pairs))` recovers the pairs, for every pair
list. -/
theorem pyParseQsl_joinAmp_encodePair : ∀ pairs : List (String × String),
    pyParseQsl true (joinAmp (pairs.map encodePair)) = pairs := by
  intro pairs
  induction pairs with
  | nil => rfl
  | cons kv rest ih =>
    rw [List.map_cons]
    unfold pyParseQsl
    rw [if_neg (joinAmp_map_encodePair_ne_nil rest)]
    cases hrest : rest with
    | nil =>
      show (splitAll '&' (encodePair kv)).filterMap (qslField true) = [kv]
      rw [splitAll_of_not_mem (amp_not_mem_encodePair kv)]
      rw [List.filterMap_cons, qslField_encodePair]
      rfl
    | cons kv2 rest2 =>
      have hjoin : joinAmp (encodePair kv :: rest.map encodePair) =
          encodePair kv ++ '&' :: joinAmp (rest.map encodePair) := by
        rw [hrest, List.map_cons]
        rfl
      rw [← hrest, hjoin, splitAll_append (amp_not_mem_encodePair kv),
        List.filterMap_cons, qslField_encodePair]
      have hrec := ih
      unfold pyParseQsl at hrec
      rw [if_neg (by rw [hrest, List.map_cons]; exact joinAmp_map_encodePair_ne_nil rest2)]
        at hrec
      rw [hrec]

/-! ## Order properties of the Python `<` comparisons -/

theorem bool_eq_false {b : Bool} (h : ¬ b = true) : b = false := by
  cases b
  · rfl
  · exact absurd rfl h

theorem bool_ne_true {b : Bool} (h : b = false) : ¬ b = true :=
  fun hc => Bool.noConfusion (h ▸ hc)

theorem pyStrLtL_asymm : ∀ {l m : List Char}, pyStrLtL l m = true → pyStrLtL m l = false
  | [], [], h => Bool.noConfusion h
  | [], _ :: _, _ => rfl
  | _ :: _, [], h => Bool.noConfusion h
  | a :: l, b :: m, h => by
    rw [show pyStrLtL (a :: l) (b :: m) =
      (if a < b then true else if b < a then false else pyStrLtL l m) from rfl] at h
    show (if b < a then true else if a < b then false else pyStrLtL m l) = false
    by_cases hab : a < b
    · rw [if_neg (asymm hab), if_pos hab]
    · rw [if_neg hab] at h
      by_cases hba : b < a
      · rw [if_pos hba] at h
        exact Bool.noConfusion h
      · rw [if_neg hba] at h
        rw [if_neg hba, if_neg hab]
        exact pyStrLtL_asymm h

theorem pyStrLtL_trans : ∀ {l m n : List Char}, pyStrLtL l m = true →
    pyStrLtL m n = true → pyStrLtL l n = true
  | [], [], _, h1, _ => Bool.noConfusion h1
  | [], _ :: _, [], _, h2 => Bool.noConfusion h2
  | [], _ :: _, _ :: _, _, _ => rfl
  | _ :: _, [], _, h1, _ => Bool.noConfusion h1
  | _ :: _, _ :: _, [], _, h2 => Bool.noConfusion h2
  | a :: l, b :: m, c :: n, h1, h2 => by
    rw [show pyStrLtL (a :: l) (b :: m) =
      (if a < b then true else if b < a then false else pyStrLtL l m) from rfl] at h1
    rw [show pyStrLtL (b :: m) (c :: n) =
      (if b < c then true else if c < b then false else pyStrLtL m n) from rfl] at h2
    show (if a < c then true else if c < a then false else pyStrLtL l n) = true
    by_cases hab : a < b
    · by_cases hbc : b < c
      · rw [if_pos (lt_trans hab hbc)]
      · rw [if_neg hbc] at h2
        by_cases hcb : c < b
        · rw [if_pos hcb] at h2
          exact Bool.noConfusion h2
        · have hbceq : b = c := le_antisymm (not_lt.mp hcb) (not_lt.mp hbc)
          subst hbceq
          rw [if_pos hab]
    · rw [if_neg hab] at h1
      by_cases hba : b < a
      · rw [if_pos hba] at h1
        exact Bool.noConfusion h1
      · rw [if_neg hba] at h1
        have haeq : a = b := le_antisymm (not_lt.mp hba) (not_lt.mp hab)
        subst haeq
        by_cases hac : a < c
        · rw [if_pos hac]
        · rw [if_neg hac] at h2
          by_cases hca : c < a
          · rw [if_pos hca] at h2
            exact Bool.noConfusion h2
          · rw [if_neg hca] at h2
            rw [if_neg hac, if_neg hca]
            exact pyStrLtL_trans h1 h2

theorem pyStrLtL_conn : ∀ {l m : List Char}, pyStrLtL l m = false →
    pyStrLtL m l = false → l = m
  | [], [], _, _ => rfl
  | [], _ :: _, h1, _ => Bool.noConfusion h1
  | _ :: _, [], _, h2 => Bool.noConfusion h2
  | a :: l, b :: m, h1, h2 => by
    rw [show pyStrLtL (a :: l) (b :: m) =
      (if a < b then true else if b < a then false else pyStrLtL l m) from rfl] at h1
    rw [show pyStrLtL (b :: m) (a :: l) =
      (if b < a then true else if a < b then false else pyStrLtL m l) from rfl] at h2
    by_cases hab : a < b
    · rw [if_pos hab] at h1
      exact Bool.noConfusion h1
    · by_cases hba : b < a
      · rw [if_pos hba] at h2
        exact Bool.noConfusion h2
      · rw [if_neg hab, if_neg hba] at h1
        rw [if_neg hba, if_neg hab] at h2
        have : a = b := le_antisymm (not_lt.mp hba) (not_lt.mp hab)
        rw [this, pyStrLtL_conn h1 h2]

theorem pyStrLt_asymm {a b : String} (h : pyStrLt a b = true) : pyStrLt b a = false :=
  pyStrLtL_asymm h

theorem pyStrLt_trans {a b c : String} (h1 : pyStrLt a b = true)
    (h2 : pyStrLt b c = true) : pyStrLt a c = true :=
  pyStrLtL_trans h1 h2

theorem pyStrLt_conn {a b : String} (h1 : pyStrLt a b = false)
    (h2 : pyStrLt b a = false) : a = b :=
  String.ext (pyStrLtL_conn h1 h2)

theorem pyStrListLt_asymm : ∀ {l m : List String}, pyStrListLt l m = true →
    pyStrListLt m l = false
  | [], [], h => Bool.noConfusion h
  | [], _ :: _, _ => rfl
  | _ :: _, [], h => Bool.noConfusion h
  | a :: l, b :: m, h => by
    rw [show pyStrListLt (a :: l) (b :: m) =
      (if pyStrLt a b then true else if pyStrLt b a then false else pyStrListLt l m)
      from rfl] at h
    show (if pyStrLt b a then true else if pyStrLt a b then false else pyStrListLt m l)
      = false
    by_cases hab : pyStrLt a b = true
    · rw [if_neg (bool_ne_true (pyStrLt_asymm hab)), if_pos hab]
    · rw [if_neg hab] at h
      by_cases hba : pyStrLt b a = true
      · rw [if_pos hba] at h
        exact Bool.noConfusion h
      · rw [if_neg hba] at h
        rw [if_neg hba, if_neg hab]
        exact pyStrListLt_asymm h

theorem pyStrListLt_trans : ∀ {l m n : List String}, pyStrListLt l m = true →
    pyStrListLt m n = true → pyStrListLt l n = true
  | [], [], _, h1, _ => Bool.noConfusion h1
  | [], _ :: _, [], _, h2 => Bool.noConfusion h2
  | [], _ :: _, _ :: _, _, _ => rfl
  | _ :: _, [], _, h1, _ => Bool.noConfusion h1
  | _ :: _, _ :: _, [], _, h2 => Bool.noConfusion h2
  | a :: l, b :: m, c :: n, h1, h2 => by
    rw [show pyStrListLt (a :: l) (b :: m) =
      (if pyStrLt a b then true else if pyStrLt b a then false else pyStrListLt l m)
      from rfl] at h1
    rw [show pyStrListLt (b :: m) (c :: n) =
      (if pyStrLt b c then true else if pyStrLt c b then false else pyStrListLt m n)
      from rfl] at h2
    show (if pyStrLt a c then true else if pyStrLt c a then false else pyStrListLt l n)
      = true
    by_cases hab : pyStrLt a b = true
    · by_cases hbc : pyStrLt b c = true
      · rw [if_pos (pyStrLt_trans hab hbc)]
      · rw [if_neg hbc] at h2
        by_cases hcb : pyStrLt c b = true
        · rw [if_pos hcb] at h2
          exact Bool.noConfusion h2
        · have hbceq : b = c := pyStrLt_conn (bool_eq_false hbc) (bool_eq_false hcb)
          subst hbceq
          rw [if_pos hab]
    · rw [if_neg hab] at h1
      by_cases hba : pyStrLt b a = true
      · rw [if_pos hba] at h1
        exact Bool.noConfusion h1
      · rw [if_neg hba] at h1
        have haeq : a = b := pyStrLt_conn (bool_eq_false hab) (bool_eq_false hba)
        subst haeq
        by_cases hac : pyStrLt a c = true
        · rw [if_pos hac]
        · rw [if_neg hac] at h2
          by_cases hca : pyStrLt c a = true
          · rw [if_pos hca] at h2
            exact Bool.noConfusion h2
          · rw [if_neg hca] at h2
            rw [if_neg hac, if_neg hca]
            exact pyStrListLt_trans h1 h2

theorem pyStrListLt_conn : ∀ {l m : List String}, pyStrListLt l m = false →
    pyStrListLt m l = false → l = m
  | [], [], _, _ => rfl
  | [], _ :: _, h1, _ => Bool.noConfusion h1
  | _ :: _, [], _, h2 => Bool.noConfusion h2
  | a :: l, b :: m, h1, h2 => by
    rw [show pyStrListLt (a :: l) (b :: m) =
      (if pyStrLt a b then true else if pyStrLt b a then false else pyStrListLt l m)
      from rfl] at h1
    rw [show pyStrListLt (b :: m) (a :: l) =
      (if pyStrLt b a then true else if pyStrLt a b then false else pyStrListLt m l)
      from rfl] at h2
    by_cases hab : pyStrLt a b = true
    · rw [if_pos hab] at h1
      exact Bool.noConfusion h1
    · by_cases hba : pyStrLt b a = true
      · rw [if_pos hba] at h2
        exact Bool.noConfusion h2
      · rw [if_neg hab, if_neg hba] at h1
        rw [if_neg hba, if_neg hab] at h2
        have : a = b := pyStrLt_conn (bool_eq_false hab) (bool_eq_false hba)
        rw [this, pyStrListLt_conn h1 h2]

theorem pyItemLt_asymm {x y : String × List String} (h : pyItemLt x y = true) :
    pyItemLt y x = false := by
  unfold pyItemLt at h ⊢
  by_cases h1 : pyStrLt x.1 y.1 = true
  · rw [if_neg (bool_ne_true (pyStrLt_asymm h1)), if_pos h1]
  · rw [if_neg h1] at h
    by_cases h2 : pyStrLt y.1 x.1 = true
    · rw [if_pos h2] at h
      exact Bool.noConfusion h
    · rw [if_neg h2] at h
      rw [if_neg h2, if_neg h1]
      exact pyStrListLt_asymm h

theorem pyItemLt_trans {x y z : String × List String} (h1 : pyItemLt x y = true)
    (h2 : pyItemLt y z = true) : pyItemLt x z = true := by
  unfold pyItemLt at h1 h2 ⊢
  by_cases hab : pyStrLt x.1 y.1 = true
  · by_cases hbc : pyStrLt y.1 z.1 = true
    · rw [if_pos (pyStrLt_trans hab hbc)]
    · rw [if_neg hbc] at h2
      by_cases hcb : pyStrLt z.1 y.1 = true
      · rw [if_pos hcb] at h2
        exact Bool.noConfusion h2
      · have hk : y.1 = z.1 := pyStrLt_conn (bool_eq_false hbc) (bool_eq_false hcb)
        rw [if_pos (hk ▸ hab)]
  · rw [if_neg hab] at h1
    by_cases hba : pyStrLt y.1 x.1 = true
    · rw [if_pos hba] at h1
      exact Bool.noConfusion h1
    · rw [if_neg hba] at h1
      have hk : x.1 = y.1 := pyStrLt_conn (bool_eq_false hab) (bool_eq_false hba)
      by_cases hac : pyStrLt x.1 z.1 = true
      · rw [if_pos hac]
      · have hbc : ¬ pyStrLt y.1 z.1 = true := fun hc => hac (hk ▸ hc)
        rw [if_neg hbc] at h2
        by_cases hca : pyStrLt z.1 x.1 = true
        · rw [if_pos (hk ▸ hca)] at h2
          exact Bool.noConfusion h2
        · have hcb : ¬ pyStrLt z.1 y.1 = true := fun hc => hca (hk ▸ hc)
          rw [if_neg hcb] at h2
          rw [if_neg hac, if_neg hca]
          exact pyStrListLt_trans h1 h2

theorem pyItemLt_conn {x y : String × List String} (h1 : pyItemLt x y = false)
    (h2 : pyItemLt y x = false) : x = y := by
  unfold pyItemLt at h1 h2
  by_cases hab : pyStrLt x.1 y.1 = true
  · rw [if_pos hab] at h1
    exact Bool.noConfusion h1
  · by_cases hba : pyStrLt y.1 x.1 = true
    · rw [if_pos hba] at h2
      exact Bool.noConfusion h2
    · rw [if_neg hab, if_neg hba] at h1
      rw [if_neg hba, if_neg hab] at h2
      exact Prod.ext (pyStrLt_conn (bool_eq_false hab) (bool_eq_false hba))
        (pyStrListLt_conn h1 h2)

instance : IsTotal String (fun a b => pyStrLt b a = false) :=
  ⟨fun a b => by
    by_cases h : pyStrLt b a = true
    · exact Or.inr (pyStrLt_asymm h)
    · exact Or.inl (bool_eq_false h)⟩

instance : IsTrans String (fun a b => pyStrLt b a = false) :=
  ⟨fun a b c hab hbc => by
    by_cases h : pyStrLt c a = true
    · exfalso
      by_cases hbc2 : pyStrLt b c = true
      · exact bool_ne_true hab (pyStrLt_trans hbc2 h)
      · have hbceq : b = c := pyStrLt_conn (bool_eq_false hbc2) hbc
        exact bool_ne_true hab (hbceq ▸ h)
    · exact bool_eq_false h⟩

instance : IsAntisymm String (fun a b => pyStrLt b a = false) :=
  ⟨fun a b hab hba => pyStrLt_conn hba hab⟩

instance : IsTotal (String × List String) (fun x y => pyItemLt y x = false) :=
  ⟨fun x y => by
    by_cases h : pyItemLt y x = true
    · exact Or.inr (pyItemLt_asymm h)
    · exact Or.inl (bool_eq_false h)⟩

instance : IsTrans (String × List String) (fun x y => pyItemLt y x = false) :=
  ⟨fun x y z hxy hyz => by
    by_cases h : pyItemLt z x = true
    · exfalso
      by_cases hyz2 : pyItemLt y z = true
      · exact bool_ne_true hxy (pyItemLt_trans hyz2 h)
      · have heq : y = z := pyItemLt_conn (bool_eq_false hyz2) hyz
        exact bool_ne_true hxy (heq ▸ h)
    · exact bool_eq_false h⟩

instance : IsAntisymm (String × List String) (fun x y => pyItemLt y x = false) :=
  ⟨fun x y hxy hyx => pyItemLt_conn hyx hxy⟩

theorem pySortStrings_perm (l : List String) : (pySortStrings l).Perm l :=
  List.perm_insertionSort _ l

theorem pySortStrings_sorted (l : List String) :
    List.Sorted (fun a b => pyStrLt b a = false) (pySortStrings l) :=
  List.sorted_insertionSort _ l

theorem pySortStrings_eq_of_perm {l1 l2 : List String} (h : l1.Perm l2) :
    pySortStrings l1 = pySortStrings l2 :=
  List.eq_of_perm_of_sorted
    ((pySortStrings_perm l1).trans (h.trans (pySortStrings_perm l2).symm))
    (pySortStrings_sorted l1) (pySortStrings_sorted l2)

theorem pySortStrings_idem (l : List String) :
    pySortStrings (pySortStrings l) = pySortStrings l :=
  List.Sorted.insertionSort_eq (pySortStrings_sorted l)

theorem pySortItems_perm (l : List (String × List String)) :
    (pySortItems l).Perm l :=
  List.perm_insertionSort _ l

theorem pySortItems_sorted (l : List (String × List String)) :
    List.Sorted (fun x y => pyItemLt y x = false) (pySortItems l) :=
  List.sorted_insertionSort _ l

/-! ## Grouping: `parse_qs` as a fold of `addQsPair` -/

/-- Lookup of the first entry for a key in the association list built by
`parse_qs` (Python dict lookup; with distinct keys the first entry is the
entry). -/
def gfind : List (String × List String) → String → List String
  | [], _ => []
  | e :: t, k => if e.1 = k then e.2 else gfind t k

theorem gfind_map_upd_ne (kv : String × String) (k : String) (hk : k ≠ kv.1) :
    ∀ acc : List (String × List String),
      gfind (acc.map (fun e => if e.1 = kv.1 then (e.1, e.2 ++ [kv.2]) else e)) k =
        gfind acc k
  | [] => rfl
  | e :: t => by
    rw [List.map_cons]
    by_cases he : e.1 = kv.1
    · rw [if_pos he]
      have hne : ¬ e.1 = k := fun hc => hk (hc ▸ he)
      simp only [gfind]
      rw [if_neg hne, if_neg hne, gfind_map_upd_ne kv k hk t]
    · rw [if_neg he]
      simp only [gfind]
      by_cases hek : e.1 = k
      · rw [if_pos hek, if_pos hek]
      · rw [if_neg hek, if_neg hek, gfind_map_upd_ne kv k hk t]

theorem gfind_map_upd_eq (kv : String × String) :
    ∀ acc : List (String × List String),
      acc.any (fun e => e.1 = kv.1) = true →
      gfind (acc.map (fun e => if e.1 = kv.1 then (e.1, e.2 ++ [kv.2]) else e)) kv.1 =
        gfind acc kv.1 ++ [kv.2]
  | [], h => Bool.noConfusion h
  | e :: t, h => by
    rw [List.map_cons]
    by_cases he : e.1 = kv.1
    · rw [if_pos he]
      simp only [gfind]
      rw [if_pos he, if_pos he]
    · rw [if_neg he]
      simp only [gfind]
      rw [if_neg he, if_neg he]
      apply gfind_map_upd_eq kv t
      rw [List.any_cons] at h
      rcases Bool.or_eq_true_iff.mp h with h1 | h2
      · exact absurd (of_decide_eq_true h1) he
      · exact h2

theorem gfind_append_single (kv : String × String) (k : String) :
    ∀ acc : List (String × List String),
      (∀ e ∈ acc, e.1 ≠ kv.1) →
      gfind (acc ++ [(kv.1, [kv.2])]) k =
        if k = kv.1 then gfind acc k ++ [kv.2] else gfind acc k
  | [], _ => by
    rw [List.nil_append]
    simp only [gfind]
    by_cases hk : k = kv.1
    · rw [if_pos hk.symm, if_pos hk, List.nil_append]
    · rw [if_neg (fun hc => hk hc.symm), if_neg hk]
  | e :: t, hacc => by
    rw [List.cons_append]
    simp only [gfind]
    by_cases hek : e.1 = k
    · have hk : ¬ k = kv.1 := fun hc => hacc e (List.mem_cons_self e t) (hek.trans hc)
      rw [if_pos hek, if_pos hek, if_neg hk]
    · rw [if_neg hek, if_neg hek,
        gfind_append_single kv k t (fun x hx => hacc x (List.mem_cons_of_mem e hx))]

theorem gfind_addQsPair (acc : List (String × List String)) (p : String × String)
    (k : String) :
    gfind (addQsPair acc p) k =
      if k = p.1 then gfind acc k ++ [p.2] else gfind acc k := by
  unfold addQsPair
  by_cases hany : acc.any (fun e => e.1 = p.1) = true
  · rw [if_pos hany]
    by_cases hk : k = p.1
    · rw [if_pos hk, hk]
      exact gfind_map_upd_eq p acc hany
    · rw [if_neg hk]
      exact gfind_map_upd_ne p k hk acc
  · rw [if_neg hany]
    exact gfind_append_single p k acc
      (fun e he hc => hany (List.any_eq_true.mpr ⟨e, he, decide_eq_true hc⟩))

theorem gfind_foldl (k : String) :
    ∀ (ps : List (String × String)) (acc : List (String × List String)),
      gfind (ps.foldl addQsPair acc) k =
        gfind acc k ++ ((ps.filter (fun kv => kv.1 = k)).map Prod.snd)
  | [], acc => by
    rw [List.foldl_nil, List.filter_nil, List.map_nil, List.append_nil]
  | p :: ps, acc => by
    rw [List.foldl_cons, gfind_foldl k ps (addQsPair acc p), gfind_addQsPair,
      List.filter_cons]
    by_cases hk : k = p.1
    · rw [if_pos hk, if_pos (decide_eq_true hk.symm), List.map_cons,
        List.append_assoc, List.singleton_append]
    · rw [if_neg hk, if_neg (fun hc => hk (of_decide_eq_true hc).symm)]

theorem keys_map_upd (acc : List (String × List String)) (p : String × String) :
    (acc.map (fun e => if e.1 = p.1 then (e.1, e.2 ++ [p.2]) else e)).map Prod.fst =
      acc.map Prod.fst := by
  rw [List.map_map]
  apply List.map_congr_left
  intro e _
  show (if e.1 = p.1 then (e.1, e.2 ++ [p.2]) else e).1 = e.1
  by_cases he : e.1 = p.1
  · rw [if_pos he]
  · rw [if_neg he]

theorem mem_keys_addQsPair (acc : List (String × List String)) (p : String × String)
    (k : String) :
    k ∈ (addQsPair acc p).map Prod.fst ↔ k ∈ acc.map Prod.fst ∨ k = p.1 := by
  unfold addQsPair
  by_cases hany : acc.any (fun e => e.1 = p.1) = true
  · rw [if_pos hany, keys_map_upd]
    constructor
    · exact Or.inl
    · intro h
      rcases h with h | h
      · exact h
      · obtain ⟨e, he, hep⟩ := List.any_eq_true.mp hany
        rw [h, ← of_decide_eq_true hep]
        exact List.mem_map.mpr ⟨e, he, rfl⟩
  · rw [if_neg hany, List.map_append, List.mem_append]
    simp only [List.map_cons, List.map_nil, List.mem_singleton]

theorem mem_keys_foldl (k : String) :
    ∀ (ps : List (String × String)) (acc : List (String × List String)),
      k ∈ (ps.foldl addQsPair acc).map Prod.fst ↔
        k ∈ acc.map Prod.fst ∨ k ∈ ps.map Prod.fst
  | [], acc => by
    rw [List.foldl_nil, List.map_nil]
    exact ⟨Or.inl, fun h => h.resolve_right (List.not_mem_nil k)⟩
  | p :: ps, acc => by
    rw [List.foldl_cons, mem_keys_foldl k ps (addQsPair acc p), mem_keys_addQsPair,
      List.map_cons, List.mem_cons]
    tauto

theorem nodup_keys_addQsPair (acc : List (String × List String)) (p : String × String)
    (h : (acc.map Prod.fst).Nodup) : ((addQsPair acc p).map Prod.fst).Nodup := by
  unfold addQsPair
  by_cases hany : acc.any (fun e => e.1 = p.1) = true
  · rw [if_pos hany, keys_map_upd]
    exact h
  · rw [if_neg hany, List.map_append]
    simp only [List.map_cons, List.map_nil]
    apply nodup_append_singleton h
    intro hc
    obtain ⟨e, he, hek⟩ := List.mem_map.mp hc
    exact hany (List.any_eq_true.mpr ⟨e, he, decide_eq_true hek⟩)

theorem nodup_keys_foldl : ∀ (ps : List (String × String))
    (acc : List (String × List String)), (acc.map Prod.fst).Nodup →
    ((ps.foldl addQsPair acc).map Prod.fst).Nodup
  | [], _, h => h
  | p :: ps, acc, h => nodup_keys_foldl ps _ (nodup_keys_addQsPair acc p h)

theorem vals_ne_nil_addQsPair (acc : List (String × List String)) (p : String × String)
    (h : ∀ e ∈ acc, e.2 ≠ []) : ∀ e ∈ addQsPair acc p, e.2 ≠ [] := by
  intro e he
  unfold addQsPair at he
  by_cases hany : acc.any (fun x => x.1 = p.1) = true
  · rw [if_pos hany] at he
    obtain ⟨x, hx, hxe⟩ := List.mem_map.mp he
    by_cases hxp : x.1 = p.1
    · rw [if_pos hxp] at hxe
      rw [← hxe]
      exact fun hc => List.cons_ne_nil p.2 [] (List.append_eq_nil.mp hc).2
    · rw [if_neg hxp] at hxe
      rw [← hxe]
      exact h x hx
  · rw [if_neg hany] at he
    rcases List.mem_append.mp he with hin | hin
    · exact h e hin
    · rw [List.mem_singleton.mp hin]
      exact List.cons_ne_nil p.2 []

theorem vals_ne_nil_foldl : ∀ (ps : List (String × String))
    (acc : List (String × List String)), (∀ e ∈ acc, e.2 ≠ []) →
    ∀ e ∈ ps.foldl addQsPair acc, e.2 ≠ []
  | [], _, h => h
  | p :: ps, acc, h => vals_ne_nil_foldl ps _ (vals_ne_nil_addQsPair acc p h)

theorem gfind_mem : ∀ (g : List (String × List String)) (k : String),
    k ∈ g.map Prod.fst → (k, gfind g k) ∈ g
  | [], k, h => absurd h (List.not_mem_nil k)
  | e :: t, k, h => by
    simp only [gfind]
    by_cases he : e.1 = k
    · rw [if_pos he]
      have he2 : e = (k, e.2) := Prod.ext he rfl
      rw [← he2]
      exact List.mem_cons_self e t
    · rw [if_neg he]
      rw [List.map_cons, List.mem_cons] at h
      rcases h with h | h
      · exact absurd h.symm he
      · exact List.mem_cons_of_mem e (gfind_mem t k h)

theorem gfind_eq_of_mem : ∀ {g : List (String × List String)}
    {e : String × List String}, (g.map Prod.fst).Nodup → e ∈ g → gfind g e.1 = e.2
  | [], e, _, he => absurd he (List.not_mem_nil e)
  | a :: t, e, hnd, he => by
    rw [List.map_cons] at hnd
    have hnd' := List.nodup_cons.mp hnd
    simp only [gfind]
    rcases List.mem_cons.mp he with h | h
    · rw [h]
      rw [if_pos rfl]
    · have hne : ¬ a.1 = e.1 := by
        intro hc
        exact hnd'.1 (hc ▸ List.mem_map.mpr ⟨e, h, rfl⟩)
      rw [if_neg hne]
      exact gfind_eq_of_mem hnd'.2 h

theorem mem_iff_gfind {g : List (String × List String)}
    (hnd : (g.map Prod.fst).Nodup) (e : String × List String) :
    e ∈ g ↔ e.1 ∈ g.map Prod.fst ∧ gfind g e.1 = e.2 := by
  constructor
  · exact fun h => ⟨List.mem_map.mpr ⟨e, h, rfl⟩, gfind_eq_of_mem hnd h⟩
  · rintro ⟨h1, h2⟩
    have := gfind_mem g e.1 h1
    rw [h2] at this
    rwa [Prod.mk.eta] at this

theorem map_upd_id {k : String} {v : String} :
    ∀ (acc : List (String × List String)), (∀ e ∈ acc, e.1 ≠ k) →
      acc.map (fun e => if e.1 = k then (e.1, e.2 ++ [v]) else e) = acc
  | [], _ => rfl
  | e :: t, hacc => by
    rw [List.map_cons, if_neg (hacc e (List.mem_cons_self e t)),
      map_upd_id t (fun x hx => hacc x (List.mem_cons_of_mem e hx))]

theorem foldl_map_pair (k : String) :
    ∀ (vs : List String) (w : List String) (acc : List (String × List String)),
      (∀ e ∈ acc, e.1 ≠ k) →
      (vs.map (fun v => (k, v))).foldl addQsPair (acc ++ [(k, w)]) =
        acc ++ [(k, w ++ vs)]
  | [], w, acc, _ => by rw [List.map_nil, List.foldl_nil, List.append_nil]
  | v :: vs, w, acc, hacc => by
    rw [List.map_cons, List.foldl_cons]
    have hany : (acc ++ [(k, w)]).any (fun e => e.1 = k) = true := by
      rw [List.any_append]
      have h1 : ([((k : String), w)]).any (fun e => e.1 = k) = true := by
        rw [List.any_cons]
        simp
      rw [h1, Bool.or_true]
    have hstep : addQsPair (acc ++ [(k, w)]) (k, v) = acc ++ [(k, w ++ [v])] := by
      unfold addQsPair
      dsimp only
      rw [if_pos hany, List.map_append, map_upd_id acc hacc, List.map_cons,
        List.map_nil, if_pos rfl]
    rw [hstep, foldl_map_pair k vs (w ++ [v]) acc hacc, List.append_assoc,
      List.singleton_append]

theorem foldl_group_single (k : String) :
    ∀ (vs : List String) (acc : List (String × List String)),
      vs ≠ [] → (∀ e ∈ acc, e.1 ≠ k) →
      (vs.map (fun v => (k, v))).foldl addQsPair acc = acc ++ [(k, vs)]
  | [], _, h, _ => absurd rfl h
  | v :: vs, acc, _, hacc => by
    rw [List.map_cons, List.foldl_cons]
    have hany : acc.any (fun e => e.1 = k) = false :=
      List.any_eq_false.mpr (fun e he hc => hacc e he (of_decide_eq_true hc))
    have hstep : addQsPair acc (k, v) = acc ++ [(k, [v])] := by
      unfold addQsPair
      dsimp only
      rw [if_neg (bool_ne_true hany)]
    rw [hstep, foldl_map_pair k vs [v] acc hacc, List.singleton_append]

theorem regroup : ∀ (g : List (String × List String))
    (acc : List (String × List String)),
    (∀ e ∈ g, ∀ a ∈ acc, a.1 ≠ e.1) → (∀ e ∈ g, e.2 ≠ []) →
    (g.map Prod.fst).Nodup →
    (flattenItems g).foldl addQsPair acc = acc ++ g
  | [], acc, _, _, _ => by
    rw [show flattenItems [] = [] from rfl, List.foldl_nil, List.append_nil]
  | e :: t, acc, hdisj, hne, hnd => by
    obtain ⟨k, vs⟩ := e
    rw [List.map_cons] at hnd
    have hnd' := List.nodup_cons.mp hnd
    rw [show flattenItems ((k, vs) :: t) =
      (vs.map (fun v => (k, v))) ++ flattenItems t from rfl]
    rw [List.foldl_append]
    rw [foldl_group_single k vs acc (hne _ (List.mem_cons_self _ _))
      (fun a ha hc => hdisj _ (List.mem_cons_self _ _) a ha hc)]
    have hdisj' : ∀ x ∈ t, ∀ a ∈ acc ++ [((k : String), vs)], a.1 ≠ x.1 := by
      intro x hx a ha
      rcases List.mem_append.mp ha with h | h
      · exact hdisj x (List.mem_cons_of_mem _ hx) a h
      · rw [List.mem_singleton.mp h]
        intro hc
        apply hnd'.1
        rw [show k = x.1 from hc]
        exact List.mem_map.mpr ⟨x, hx, rfl⟩
    rw [regroup t (acc ++ [(k, vs)]) hdisj'
      (fun x hx => hne x (List.mem_cons_of_mem _ hx)) hnd'.2]
    rw [List.append_assoc, List.singleton_append]

theorem regroup_main (g : List (String × List String))
    (hne : ∀ e ∈ g, e.2 ≠ []) (hnd : (g.map Prod.fst).Nodup) :
    (flattenItems g).foldl addQsPair [] = g := by
  rw [regroup g [] (fun _ _ _ ha => absurd ha (List.not_mem_nil _)) hne hnd,
    List.nil_append]

/-! ## `normalizeQuery`: idempotence, pair preservation, order irrelevance -/

theorem pyParseQsl_urlencode (params : List (String × List String)) :
    pyParseQsl true (pyUrlencodeDoseq params) = flattenItems params := by
  rw [pyUrlencodeDoseq_eq]
  exact pyParseQsl_joinAmp_encodePair (flattenItems params)

theorem normalizeQuery_eq (qs : List Char) :
    URLNormalizer.normalizeQuery qs =
      (if ((pySortItems (pyParseQs true qs)).map
          (fun kv => (kv.1, pySortStrings kv.2))) = [] then []
       else pyUrlencodeDoseq ((pySortItems (pyParseQs true qs)).map
          (fun kv => (kv.1, pySortStrings kv.2)))) := rfl

theorem keys_map_sortVals (l : List (String × List String)) :
    (l.map (fun kv => (kv.1, pySortStrings kv.2))).map Prod.fst = l.map Prod.fst := by
  rw [List.map_map]
  exact List.map_congr_left (fun e _ => rfl)

theorem gfind_map_sortVals : ∀ (l : List (String × List String)) (k : String),
    gfind (l.map (fun kv => (kv.1, pySortStrings kv.2))) k = pySortStrings (gfind l k)
  | [], _ => rfl
  | e :: t, k => by
    rw [List.map_cons]
    simp only [gfind]
    by_cases he : e.1 = k
    · rw [if_pos he, if_pos he]
    · rw [if_neg he, if_neg he, gfind_map_sortVals t k]

theorem params_nodup_keys (qs : List Char) :
    (((pySortItems (pyParseQs true qs)).map
      (fun kv => (kv.1, pySortStrings kv.2))).map Prod.fst).Nodup := by
  rw [keys_map_sortVals]
  rw [((pySortItems_perm (pyParseQs true qs)).map Prod.fst).nodup_iff]
  exact nodup_keys_foldl _ [] List.nodup_nil

theorem params_vals_ne_nil (qs : List Char) :
    ∀ e ∈ (pySortItems (pyParseQs true qs)).map
      (fun kv => (kv.1, pySortStrings kv.2)), e.2 ≠ [] := by
  intro e he
  obtain ⟨x, hx, hxe⟩ := List.mem_map.mp he
  have hx' : x ∈ pyParseQs true qs := (pySortItems_perm _).mem_iff.mp hx
  have hxne : x.2 ≠ [] :=
    vals_ne_nil_foldl _ [] (fun e h => absurd h (List.not_mem_nil e)) x hx'
  rw [← hxe]
  intro hc
  apply hxne
  have hp := pySortStrings_perm x.2
  rw [show ((x.1, pySortStrings x.2) : String × List String).2 = pySortStrings x.2
    from rfl] at hc
  rw [hc] at hp
  exact (List.Perm.eq_nil hp.symm).symm ▸ rfl

theorem sorted_map_sortVals (g : List (String × List String))
    (hnd : ((pySortItems g).map Prod.fst).Nodup) :
    List.Sorted (fun x y => pyItemLt y x = false)
      ((pySortItems g).map (fun kv => (kv.1, pySortStrings kv.2))) := by
  have hs := pySortItems_sorted g
  have hkeys : List.Pairwise (fun x y : String × List String => x.1 ≠ y.1)
      (pySortItems g) := List.pairwise_map.mp hnd
  apply List.pairwise_map.mpr
  have hcomb := List.Pairwise.and hs hkeys
  apply hcomb.imp
  intro a b hab
  obtain ⟨hle, hne⟩ := hab
  have hk : pyStrLt a.1 b.1 = true := by
    by_cases h1 : pyStrLt a.1 b.1 = true
    · exact h1
    · exfalso
      by_cases h2 : pyStrLt b.1 a.1 = true
      · apply bool_ne_true hle
        unfold pyItemLt
        rw [if_pos h2]
      · exact hne (pyStrLt_conn (bool_eq_false h1) (bool_eq_false h2))
  show pyItemLt (b.1, pySortStrings b.2) (a.1, pySortStrings a.2) = false
  unfold pyItemLt
  dsimp only
  rw [if_neg (bool_ne_true (pyStrLt_asymm hk)), if_pos hk]

theorem params_vals_sorted (qs : List Char) :
    ∀ e ∈ (pySortItems (pyParseQs true qs)).map
      (fun kv => (kv.1, pySortStrings kv.2)), pySortStrings e.2 = e.2 := by
  intro e he
  obtain ⟨x, hx, hxe⟩ := List.mem_map.mp he
  rw [← hxe]
  exact pySortStrings_idem x.2

theorem normalizeQuery_urlencode (params : List (String × List String))
    (hnd : (params.map Prod.fst).Nodup)
    (hne : ∀ e ∈ params, e.2 ≠ [])
    (hsorted : List.Sorted (fun x y => pyItemLt y x = false) params)
    (hvalsorted : ∀ e ∈ params, pySortStrings e.2 = e.2) :
    URLNormalizer.normalizeQuery (pyUrlencodeDoseq params) =
      pyUrlencodeDoseq params := by
  have h2 : pyParseQs true (pyUrlencodeDoseq params) = params := by
    show (pyParseQsl true (pyUrlencodeDoseq params)).foldl addQsPair [] = params
    rw [pyParseQsl_urlencode]
    exact regroup_main params hne hnd
  have h3 : params.map (fun kv => (kv.1, pySortStrings kv.2)) = params := by
    have h4 : params.map (fun kv => (kv.1, pySortStrings kv.2)) = params.map id :=
      List.map_congr_left (fun e he => by rw [hvalsorted e he]; exact Prod.mk.eta)
    rw [h4, List.map_id]
  rw [normalizeQuery_eq, h2,
    show pySortItems params = params from List.Sorted.insertionSort_eq hsorted, h3]
  by_cases hp : params = []
  · rw [if_pos hp, hp]
    rfl
  · rw [if_neg hp]

/-- `normalize`'s query pipeline is a fixed point of itself: parsing the
urlencoded, key-sorted, value-sorted query and re-encoding it reproduces it. -/
theorem normalizeQuery_idem (qs : List Char) :
    URLNormalizer.normalizeQuery (URLNormalizer.normalizeQuery qs) =
      URLNormalizer.normalizeQuery qs := by
  by_cases hz : ((pySortItems (pyParseQs true qs)).map
      (fun kv => (kv.1, pySortStrings kv.2))) = []
  · have h0 : URLNormalizer.normalizeQuery qs = [] := by
      rw [normalizeQuery_eq qs, if_pos hz]
    rw [h0]
    rfl
  · have h0 : URLNormalizer.normalizeQuery qs =
        pyUrlencodeDoseq ((pySortItems (pyParseQs true qs)).map
          (fun kv => (kv.1, pySortStrings kv.2))) := by
      rw [normalizeQuery_eq qs, if_neg hz]
    have hnd0 : ((pySortItems (pyParseQs true qs)).map Prod.fst).Nodup := by
      have h := params_nodup_keys qs
      rwa [keys_map_sortVals] at h
    rw [h0]
    exact normalizeQuery_urlencode _ (params_nodup_keys qs) (params_vals_ne_nil qs)
      (sorted_map_sortVals _ hnd0) (params_vals_sorted qs)

/-- Every `(name, value)` pair parsed from a query survives `normalize`'s
query pipeline (nothing — in particular no `page=1` — is dropped). -/
theorem mem_pyParseQsl_normalizeQuery {qs : List Char} {kv : String × String}
    (h : kv ∈ pyParseQsl true qs) :
    kv ∈ pyParseQsl true (URLNormalizer.normalizeQuery qs) := by
  have hkey : kv.1 ∈ (pyParseQs true qs).map Prod.fst := by
    show kv.1 ∈ ((pyParseQsl true qs).foldl addQsPair []).map Prod.fst
    rw [mem_keys_foldl]
    exact Or.inr (List.mem_map.mpr ⟨kv, h, rfl⟩)
  have hval : kv.2 ∈ gfind (pyParseQs true qs) kv.1 := by
    show kv.2 ∈ gfind ((pyParseQsl true qs).foldl addQsPair []) kv.1
    rw [gfind_foldl, show gfind ([] : List (String × List String)) kv.1 = []
      from rfl, List.nil_append]
    exact List.mem_map.mpr ⟨kv, List.mem_filter.mpr ⟨h, decide_eq_true rfl⟩, rfl⟩
  have hz : ((pySortItems (pyParseQs true qs)).map
      (fun kv => (kv.1, pySortStrings kv.2))) ≠ [] := by
    intro hc
    rw [List.map_eq_nil_iff] at hc
    have hg : pyParseQs true qs = [] := by
      have hperm := (pySortItems_perm (pyParseQs true qs)).symm
      rw [hc] at hperm
      exact List.Perm.eq_nil hperm
    rw [hg] at hkey
    exact absurd hkey (List.not_mem_nil kv.1)
  have h1 : pyParseQsl true (URLNormalizer.normalizeQuery qs) =
      flattenItems ((pySortItems (pyParseQs true qs)).map
        (fun kv => (kv.1, pySortStrings kv.2))) := by
    rw [normalizeQuery_eq qs, if_neg hz, pyParseQsl_urlencode]
  rw [h1]
  have hmem_g : (kv.1, gfind (pyParseQs true qs) kv.1) ∈ pyParseQs true qs :=
    gfind_mem _ _ hkey
  have hmem_s : (kv.1, gfind (pyParseQs true qs) kv.1) ∈
      pySortItems (pyParseQs true qs) := (pySortItems_perm _).mem_iff.mpr hmem_g
  have hmem_p : (kv.1, pySortStrings (gfind (pyParseQs true qs) kv.1)) ∈
      ((pySortItems (pyParseQs true qs)).map
        (fun kv => (kv.1, pySortStrings kv.2))) := List.mem_map.mpr ⟨_, hmem_s, rfl⟩
  apply mem_lconcatMap.mpr
  refine ⟨(kv.1, pySortStrings (gfind (pyParseQs true qs) kv.1)), hmem_p, ?_⟩
  apply List.mem_map.mpr
  refine ⟨kv.2, ?_, ?_⟩
  · exact (pySortStrings_perm _).mem_iff.mpr hval
  · exact Prod.mk.eta

theorem mem_map_sortVals {g : List (String × List String)}
    (hnd : (g.map Prod.fst).Nodup) (x : String × List String) :
    x ∈ g.map (fun kv => (kv.1, pySortStrings kv.2)) ↔
      x.1 ∈ g.map Prod.fst ∧ x.2 = pySortStrings (gfind g x.1) := by
  have hnd' : ((g.map (fun kv => (kv.1, pySortStrings kv.2))).map Prod.fst).Nodup := by
    rwa [keys_map_sortVals]
  rw [mem_iff_gfind hnd' x, keys_map_sortVals, gfind_map_sortVals]
  constructor
  · rintro ⟨h1, h2⟩
    exact ⟨h1, h2.symm⟩
  · rintro ⟨h1, h2⟩
    exact ⟨h1, h2.symm⟩

theorem map_sortVals_perm {g1 g2 : List (String × List String)}
    (hnd1 : (g1.map Prod.fst).Nodup) (hnd2 : (g2.map Prod.fst).Nodup)
    (hkeys : ∀ k, k ∈ g1.map Prod.fst ↔ k ∈ g2.map Prod.fst)
    (hvals : ∀ k, pySortStrings (gfind g1 k) = pySortStrings (gfind g2 k)) :
    (g1.map (fun kv => (kv.1, pySortStrings kv.2))).Perm
      (g2.map (fun kv => (kv.1, pySortStrings kv.2))) := by
  have hn1 : (g1.map (fun kv => (kv.1, pySortStrings kv.2))).Nodup :=
    List.Nodup.of_map Prod.fst (by rwa [keys_map_sortVals])
  have hn2 : (g2.map (fun kv => (kv.1, pySortStrings kv.2))).Nodup :=
    List.Nodup.of_map Prod.fst (by rwa [keys_map_sortVals])
  apply (List.perm_ext_iff_of_nodup hn1 hn2).mpr
  intro x
  rw [mem_map_sortVals hnd1 x, mem_map_sortVals hnd2 x, hkeys x.1, hvals x.1]

/-- Two query strings whose parsed `(name, value)` pair lists are
permutations of each other normalize to the same query. -/
theorem normalizeQuery_of_perm {q1 q2 : List Char}
    (h : (pyParseQsl true q1).Perm (pyParseQsl true q2)) :
    URLNormalizer.normalizeQuery q1 = URLNormalizer.normalizeQuery q2 := by
  have hnd1 : ((pyParseQs true q1).map Prod.fst).Nodup :=
    nodup_keys_foldl _ [] List.nodup_nil
  have hnd2 : ((pyParseQs true q2).map Prod.fst).Nodup :=
    nodup_keys_foldl _ [] List.nodup_nil
  have hkeys : ∀ k, k ∈ (pyParseQs true q1).map Prod.fst ↔
      k ∈ (pyParseQs true q2).map Prod.fst := by
    intro k
    show k ∈ ((pyParseQsl true q1).foldl addQsPair []).map Prod.fst ↔
      k ∈ ((pyParseQsl true q2).foldl addQsPair []).map Prod.fst
    rw [mem_keys_foldl, mem_keys_foldl]
    exact or_congr Iff.rfl (h.map Prod.fst).mem_iff
  have hvals : ∀ k, pySortStrings (gfind (pyParseQs true q1) k) =
      pySortStrings (gfind (pyParseQs true q2) k) := by
    intro k
    show pySortStrings (gfind ((pyParseQsl true q1).foldl addQsPair []) k) =
      pySortStrings (gfind ((pyParseQsl true q2).foldl addQsPair []) k)
    rw [gfind_foldl, gfind_foldl, show gfind ([] : List (String × List String)) k = []
      from rfl, List.nil_append, List.nil_append]
    exact pySortStrings_eq_of_perm ((h.filter _).map Prod.snd)
  have hperm := map_sortVals_perm hnd1 hnd2 hkeys hvals
  have hs1 : ((pySortItems (pyParseQs true q1)).map Prod.fst).Nodup := by
    rwa [((pySortItems_perm (pyParseQs true q1)).map Prod.fst).nodup_iff]
  have hs2 : ((pySortItems (pyParseQs true q2)).map Prod.fst).Nodup := by
    rwa [((pySortItems_perm (pyParseQs true q2)).map Prod.fst).nodup_iff]
  have hm : ((pySortItems (pyParseQs true q1)).map
        (fun kv => (kv.1, pySortStrings kv.2))) =
      ((pySortItems (pyParseQs true q2)).map
        (fun kv => (kv.1, pySortStrings kv.2))) := by
    apply List.eq_of_perm_of_sorted ?_ (sorted_map_sortVals _ hs1)
      (sorted_map_sortVals _ hs2)
    exact ((pySortItems_perm _).map _).trans
      (hperm.trans (((pySortItems_perm _).map _).symm))
  rw [normalizeQuery_eq q1, normalizeQuery_eq q2, hm]

/-- C8 (amended): `normalize` does NOT remove the `page=1` pagination
marker.  For every URL that parses with `("page", "1")` among its query
pairs, the canonical URL `normalize` returns is
`scheme://netloc<path>?<q>` where `("page", "1")` is still among the pairs
`parse_qsl` reads back from `q` — the pair survives the parse/sort/encode
pipeline. -/
theorem page_eq_one_survives_normalize (u : String) (pr : ParseResult)
    (hp : pyUrlparse u = some pr)
    (hkv : ("page", "1") ∈ pyParseQsl true pr.query.data) :
    ∃ q : List Char,
      URLNormalizer.normalize u =
        ⟨(pyLower pr.scheme).data ++ ':' :: '/' :: '/' :: (pyLower pr.netloc).data ++
          URLNormalizer.stripPath pr.path.data ++ '?' :: q⟩ ∧
      ("page", "1") ∈ pyParseQsl true q := by
  have hmem := mem_pyParseQsl_normalizeQuery hkv
  have hne : URLNormalizer.normalizeQuery pr.query.data ≠ [] := by
    intro hc
    rw [hc, show pyParseQsl true ([] : List Char) = [] from rfl] at hmem
    exact absurd hmem (List.not_mem_nil _)
  refine ⟨URLNormalizer.normalizeQuery pr.query.data, ?_, hmem⟩
  unfold URLNormalizer.normalize
  rw [hp]
  dsimp only
  rw [if_neg hne]

/-- Witness: `page=1` survives the normalization of
`http://example.com/list?page=1&b=2`. -/
theorem page_eq_one_survives_normalize_witness :
    pyUrlparse "http://example.com/list?page=1&b=2" =
        some ⟨"http", "example.com", "/list", "", "page=1&b=2", ""⟩ ∧
    ("page", "1") ∈ pyParseQsl true ("page=1&b=2" : String).data ∧
    ∃ q : List Char,
      URLNormalizer.normalize "http://example.com/list?page=1&b=2" =
        ⟨(pyLower "http").data ++ ':' :: '/' :: '/' :: (pyLower "example.com").data ++
          URLNormalizer.stripPath ("/list" : String).data ++ '?' :: q⟩ ∧
      ("page", "1") ∈ pyParseQsl true q :=
  ⟨by decide, by decide,
    page_eq_one_survives_normalize "http://example.com/list?page=1&b=2"
      ⟨"http", "example.com", "/list", "", "page=1&b=2", ""⟩ (by decide) (by decide)⟩

/-- C10: `normalize` sorts query parameter names (and the values of repeated
names), so two URLs that parse to the same scheme, netloc and path and whose
query pair lists are permutations of each other get the same canonical URL.
(`params` and `fragment` are dropped by `normalize` and cannot matter.) -/
theorem normalize_query_order_irrelevant (u1 u2 : String) (pr1 pr2 : ParseResult)
    (h1 : pyUrlparse u1 = some pr1) (h2 : pyUrlparse u2 = some pr2)
    (hs : pr1.scheme = pr2.scheme) (hn : pr1.netloc = pr2.netloc)
    (hpath : pr1.path = pr2.path)
    (hq : (pyParseQsl true pr1.query.data).Perm (pyParseQsl true pr2.query.data)) :
    URLNormalizer.normalize u1 = URLNormalizer.normalize u2 := by
  unfold URLNormalizer.normalize
  rw [h1, h2]
  dsimp only
  rw [hs, hn, hpath, normalizeQuery_of_perm hq]

/-- Witness: `?b=2&a=1` and `?a=1&b=2` collapse to one canonical URL. -/
theorem normalize_query_order_irrelevant_witness :
    pyUrlparse "http://h.test/p?b=2&a=1" = some ⟨"http", "h.test", "/p", "", "b=2&a=1", ""⟩ ∧
    (pyParseQsl true ("b=2&a=1" : String).data).Perm
      (pyParseQsl true ("a=1&b=2" : String).data) ∧
    URLNormalizer.normalize "http://h.test/p?b=2&a=1" =
      URLNormalizer.normalize "http://h.test/p?a=1&b=2" :=
  ⟨by decide, by decide,
    normalize_query_order_irrelevant "http://h.test/p?b=2&a=1" "http://h.test/p?a=1&b=2"
      ⟨"http", "h.test", "/p", "", "b=2&a=1", ""⟩
      ⟨"http", "h.test", "/p", "", "a=1&b=2", ""⟩
      (by decide) (by decide) (by decide) (by decide) (by decide) (by decide)⟩

/-! ## Reassembly helpers for the idempotence of `normalize` -/

theorem lStartsWith_nil : ∀ l : List Char, lStartsWith l [] = true
  | [] => rfl
  | _ :: _ => rfl

theorem lfind_append {c : Char} : ∀ {s : List Char}, c ∉ s →
    ∀ r, lfind c (s ++ c :: r) = some s.length
  | [], _, r => by
    rw [List.nil_append, lfind, if_pos rfl]
    rfl
  | a :: s, h, r => by
    have hne : ¬ (a = c) := fun hh => h (List.mem_cons.mpr (Or.inl hh.symm))
    have htail : c ∉ s := fun hh => h (List.mem_cons_of_mem a hh)
    rw [List.cons_append, lfind, if_neg hne, lfind_append htail r]
    rfl

theorem takeWhile_append_all {p : Char → Bool} :
    ∀ (n : List Char), (∀ c ∈ n, p c = true) → ∀ (h : Char), p h = false →
      ∀ (r : List Char), (n ++ h :: r).takeWhile p = n
  | [], _, h, hh, r => by
    rw [List.nil_append, List.takeWhile_cons, hh]
    rw [if_neg (fun hc => Bool.noConfusion hc)]
  | a :: n, hall, h, hh, r => by
    rw [List.cons_append, List.takeWhile_cons, hall a (List.mem_cons_self a n),
      if_pos rfl, takeWhile_append_all n (fun c hc => hall c (List.mem_cons_of_mem a hc))
        h hh r]

theorem dropWhile_append_all {p : Char → Bool} :
    ∀ (n : List Char), (∀ c ∈ n, p c = true) → ∀ (h : Char), p h = false →
      ∀ (r : List Char), (n ++ h :: r).dropWhile p = h :: r
  | [], _, h, hh, r => by
    rw [List.nil_append, List.dropWhile_cons, hh]
    rw [if_neg (fun hc => Bool.noConfusion hc)]
  | a :: n, hall, h, hh, r => by
    rw [List.cons_append, List.dropWhile_cons, hall a (List.mem_cons_self a n),
      if_pos rfl, dropWhile_append_all n (fun c hc => hall c (List.mem_cons_of_mem a hc))
        h hh r]

theorem contains_eq_false {c : Char} : ∀ {l : List Char}, c ∉ l → l.contains c = false
  | [], _ => rfl
  | a :: l, h => by
    rw [List.contains_cons,
      contains_eq_false (fun hh => h (List.mem_cons_of_mem a hh))]
    have hne : (c == a) = false := by
      apply bool_eq_false
      intro hc
      exact h (List.mem_cons.mpr (Or.inl (eq_of_beq hc)))
    rw [hne]
    rfl

theorem mem_joinAmp {c : Char} : ∀ {ls : List (List Char)}, c ∈ joinAmp ls →
    c = '&' ∨ ∃ l ∈ ls, c ∈ l
  | [], h => absurd h (List.not_mem_nil c)
  | [x], h => Or.inr ⟨x, List.mem_singleton.mpr rfl, h⟩
  | x :: y :: ys, h => by
    rw [show joinAmp (x :: y :: ys) = x ++ '&' :: joinAmp (y :: ys) from rfl] at h
    rcases List.mem_append.mp h with h | h
    · exact Or.inr ⟨x, List.mem_cons_self _ _, h⟩
    · rcases List.mem_cons.mp h with h | h
      · exact Or.inl h
      · rcases mem_joinAmp h with h | ⟨l, hl, hcl⟩
        · exact Or.inl h
        · exact Or.inr ⟨l, List.mem_cons_of_mem x hl, hcl⟩

theorem mem_pyUrlencodeDoseq {c : Char} {params : List (String × List String)}
    (h : c ∈ pyUrlencodeDoseq params) :
    c ≠ '#' ∧ c ≠ '?' ∧ isUnsafeUrlByte c = false := by
  rw [pyUrlencodeDoseq_eq] at h
  rcases mem_joinAmp h with h | ⟨l, hl, hcl⟩
  · subst h
    exact ⟨by decide, by decide, by decide⟩
  · obtain ⟨kv, _, hkv⟩ := List.mem_map.mp hl
    rw [← hkv] at hcl
    unfold encodePair at hcl
    rcases List.mem_append.mp hcl with h | h
    · have hc := mem_pyQuotePlus_ne _ c h
      exact ⟨hc.2.2.1, hc.2.2.2.1, hc.2.2.2.2⟩
    · rcases List.mem_cons.mp h with h | h
      · subst h
        exact ⟨by decide, by decide, by decide⟩
      · have hc := mem_pyQuotePlus_ne _ c h
        exact ⟨hc.2.2.1, hc.2.2.2.1, hc.2.2.2.2⟩

theorem mem_normalizeQuery {c : Char} {qs : List Char}
    (h : c ∈ URLNormalizer.normalizeQuery qs) :
    c ≠ '#' ∧ c ≠ '?' ∧ isUnsafeUrlByte c = false := by
  rw [normalizeQuery_eq] at h
  by_cases hz : ((pySortItems (pyParseQs true qs)).map
      (fun kv => (kv.1, pySortStrings kv.2))) = []
  · rw [if_pos hz] at h
    exact absurd h (List.not_mem_nil c)
  · rw [if_neg hz] at h
    exact mem_pyUrlencodeDoseq h

theorem char_toLower_toLower (c : Char) : c.toLower.toLower = c.toLower := by
  by_cases h : 65 ≤ c.toNat ∧ c.toNat ≤ 90
  · have h1 : c.toLower = Char.ofNat (c.toNat + 32) := by
      show (if c.toNat ≥ 65 ∧ c.toNat ≤ 90 then Char.ofNat (c.toNat + 32) else c) =
        Char.ofNat (c.toNat + 32)
      rw [if_pos h]
    have ht : (Char.ofNat (c.toNat + 32)).toNat = c.toNat + 32 :=
      char_toNat_ofNat (by omega)
    rw [h1]
    show (if (Char.ofNat (c.toNat + 32)).toNat ≥ 65 ∧
        (Char.ofNat (c.toNat + 32)).toNat ≤ 90
      then Char.ofNat ((Char.ofNat (c.toNat + 32)).toNat + 32)
      else Char.ofNat (c.toNat + 32)) = Char.ofNat (c.toNat + 32)
    rw [if_neg (fun hc => by rw [ht] at hc; omega)]
  · have h1 : c.toLower = c := by
      show (if c.toNat ≥ 65 ∧ c.toNat ≤ 90 then Char.ofNat (c.toNat + 32) else c) = c
      rw [if_neg h]
    rw [h1, h1]

theorem pyLowerL_idem (l : List Char) : pyLowerL (pyLowerL l) = pyLowerL l := by
  unfold pyLowerL
  rw [List.map_map]
  exact List.map_congr_left (fun c _ => char_toLower_toLower c)

theorem dropWhile_head_false {p : Char → Bool} : ∀ {l : List Char} {c : Char}
    {t : List Char}, l.dropWhile p = c :: t → p c = false
  | [], c, t, h => List.noConfusion h
  | a :: l, c, t, h => by
    rw [List.dropWhile_cons] at h
    by_cases ha : p a = true
    · rw [if_pos ha] at h
      exact dropWhile_head_false h
    · rw [if_neg ha] at h
      injection h with h1 _
      rw [← h1]
      exact bool_eq_false ha

theorem dropWhile_suffix (p : Char → Bool) : ∀ l : List Char, l.dropWhile p <:+ l
  | [] => List.suffix_refl []
  | a :: l => by
    rw [List.dropWhile_cons]
    by_cases ha : p a = true
    · rw [if_pos ha]
      exact (dropWhile_suffix p l).trans (List.suffix_cons a l)
    · rw [if_neg ha]

theorem rstripSlash_pre (l : List Char) : rstripSlash l <+: l := by
  apply List.reverse_suffix.mp
  show (l.reverse.dropWhile (· = '/')).reverse.reverse <:+ l.reverse
  rw [List.reverse_reverse]
  exact dropWhile_suffix _ _

theorem prefix_head {l p : List Char} (h : p <+: l) (hne : p ≠ []) :
    p.head? = l.head? := by
  obtain ⟨t, rfl⟩ := h
  cases p with
  | nil => exact absurd rfl hne
  | cons a p => rfl

theorem rstripSlash_not_endsWith {l : List Char} (h : rstripSlash l ≠ []) :
    lEndsWith (rstripSlash l) ['/'] = false := by
  have hrev : (rstripSlash l).reverse = l.reverse.dropWhile (· = '/') := by
    show (l.reverse.dropWhile (· = '/')).reverse.reverse = _
    rw [List.reverse_reverse]
  cases hd : l.reverse.dropWhile (· = '/') with
  | nil =>
    exfalso
    apply h
    show (l.reverse.dropWhile (· = '/')).reverse = []
    rw [hd]
    rfl
  | cons c t =>
    have hc : (decide (c = '/')) = false := dropWhile_head_false hd
    show lStartsWith (rstripSlash l).reverse (['/'].reverse) = false
    rw [hrev, hd]
    show (decide (c = '/') && lStartsWith t []) = false
    rw [hc]
    rfl

theorem stripPath_of_ne (x : List Char) (hx : x ≠ []) :
    URLNormalizer.stripPath x =
      (if x ≠ ['/'] ∧ lEndsWith x ['/'] then rstripSlash x else x) := by
  show (if (if x = [] then ['/'] else x) ≠ ['/'] ∧
      lEndsWith (if x = [] then ['/'] else x) ['/']
    then rstripSlash (if x = [] then ['/'] else x)
    else (if x = [] then ['/'] else x)) =
    (if x ≠ ['/'] ∧ lEndsWith x ['/'] then rstripSlash x else x)
  rw [if_neg hx]

theorem stripPath_head (x : List Char) (h0 : x = [] ∨ x.head? = some '/')
    (hne : URLNormalizer.stripPath x ≠ []) :
    (URLNormalizer.stripPath x).head? = some '/' := by
  by_cases hx : x = []
  · subst hx
    rfl
  · rcases h0 with rfl | hh
    · exact absurd rfl hx
    · rw [stripPath_of_ne x hx] at hne ⊢
      by_cases hc : x ≠ ['/'] ∧ lEndsWith x ['/']
      · rw [if_pos hc] at hne ⊢
        rw [prefix_head (rstripSlash_pre x) hne]
        exact hh
      · rw [if_neg hc] at hne ⊢
        exact hh

theorem mem_stripPath {x : List Char} {c : Char}
    (h : c ∈ URLNormalizer.stripPath x) : c ∈ x ∨ c = '/' := by
  by_cases hx : x = []
  · subst hx
    exact Or.inr (List.mem_singleton.mp h)
  · rw [stripPath_of_ne x hx] at h
    by_cases hc : x ≠ ['/'] ∧ lEndsWith x ['/']
    · rw [if_pos hc] at h
      exact Or.inl ((rstripSlash_pre x).subset h)
    · rw [if_neg hc] at h
      exact Or.inl h

theorem stripPath_idem (x : List Char) (h : URLNormalizer.stripPath x ≠ []) :
    URLNormalizer.stripPath (URLNormalizer.stripPath x) =
      URLNormalizer.stripPath x := by
  by_cases hx : x = []
  · subst hx
    rfl
  · rw [stripPath_of_ne x hx] at h ⊢
    by_cases hc : x ≠ ['/'] ∧ lEndsWith x ['/']
    · rw [if_pos hc] at h ⊢
      rw [stripPath_of_ne _ h,
        if_neg (fun hcc => bool_ne_true (rstripSlash_not_endsWith h) hcc.2)]
    · rw [if_neg hc] at h ⊢
      rw [stripPath_of_ne x hx, if_neg hc]

theorem isSchemeChar_ne_colon {c : Char} (h : isSchemeChar c = true) : c ≠ ':' :=
  fun hc => absurd (hc ▸ h) (by decide)

theorem isSchemeChar_safe {c : Char} (h : isSchemeChar c = true) :
    isUnsafeUrlByte c = false := by
  unfold isUnsafeUrlByte
  simp only [decide_eq_false_iff_not]
  intro hor
  rcases hor with hc | hc | hc
  · subst hc
    exact absurd h (by decide)
  · subst hc
    exact absurd h (by decide)
  · subst hc
    exact absurd h (by decide)

/-- Splitting the reassembled URL recovers its components: for a lowercase
well-formed scheme, a delimiter-free bracket-free netloc, a slash-led path
free of `#`/`?` and a `#`-free query, `urlsplit` of
`scheme://netloc<path>?<query>` returns the components unchanged. -/
theorem pyUrlsplit_reconstruct (s n p q : List Char)
    (hs0 : s ≠ []) (hs1 : isAsciiAlpha (s.headD ' ') = true)
    (hs2 : s.all isSchemeChar = true) (hslow : pyLowerL s = s)
    (hn : ∀ c ∈ n, c ≠ '/' ∧ c ≠ '?' ∧ c ≠ '#' ∧ c ≠ '[' ∧ c ≠ ']' ∧
      isUnsafeUrlByte c = false)
    (hp0 : p.head? = some '/')
    (hp1 : ∀ c ∈ p, c ≠ '#' ∧ c ≠ '?' ∧ isUnsafeUrlByte c = false)
    (hq : ∀ c ∈ q, c ≠ '#' ∧ isUnsafeUrlByte c = false) :
    pyUrlsplit ⟨s ++ ':' :: '/' :: '/' :: n ++ p ++ (if q = [] then [] else '?' :: q)⟩
        "" = some ⟨⟨s⟩, ⟨n⟩, ⟨p⟩, ⟨q⟩, ""⟩ := by
  obtain ⟨p', rfl⟩ : ∃ p', p = '/' :: p' := by
    cases p with
    | nil => exact absurd hp0 (by simp)
    | cons a t => exact ⟨t, by rw [Option.some.inj hp0]⟩
  have hall := List.all_eq_true.mp hs2
  have hcolon : ':' ∉ s := fun hc => isSchemeChar_ne_colon (hall ':' hc) rfl
  have hgoal : ∀ c : Char, isUnsafeUrlByte c = false → (!isUnsafeUrlByte c) = true := by
    intro c h
    rw [h]
    rfl
  have hnetdelim : ∀ c ∈ n, notNetlocDelim c = true := by
    intro c hc
    show ((decide (c ≠ '/') && decide (c ≠ '?')) && decide (c ≠ '#')) = true
    rw [decide_eq_true (hn c hc).1, decide_eq_true (hn c hc).2.1,
      decide_eq_true (hn c hc).2.2.1]
    rfl
  have hbl : n.contains '[' = false := contains_eq_false (fun hc => (hn _ hc).2.2.2.1 rfl)
  have hbr : n.contains ']' = false :=
    contains_eq_false (fun hc => (hn _ hc).2.2.2.2.1 rfl)
  have hbrf : ((n.contains '[' && !n.contains ']') ||
      (n.contains ']' && !n.contains '[')) = false := by
    rw [hbl, hbr]
    rfl
  simp only [List.append_assoc, List.cons_append]
  by_cases hq0 : q = []
  · subst hq0
    rw [if_pos rfl, List.append_nil]
    have hsafeO : ∀ c ∈ s ++ ':' :: '/' :: '/' :: (n ++ '/' :: p'),
        (!isUnsafeUrlByte c) = true := by
      intro c hc
      rcases List.mem_append.mp hc with h | h
      · exact hgoal c (isSchemeChar_safe (hall c h))
      · rcases List.mem_cons.mp h with rfl | h
        · exact hgoal _ (by decide)
        · rcases List.mem_cons.mp h with rfl | h
          · exact hgoal _ (by decide)
          · rcases List.mem_cons.mp h with rfl | h
            · exact hgoal _ (by decide)
            · rcases List.mem_append.mp h with h | h
              · exact hgoal c (hn c h).2.2.2.2.2
              · exact hgoal c (hp1 c h).2.2
    simp only [pyUrlsplit]
    rw [show removeUnsafe (s ++ ':' :: '/' :: '/' :: (n ++ '/' :: p')) =
      s ++ ':' :: '/' :: '/' :: (n ++ '/' :: p') from List.filter_eq_self.mpr hsafeO]
    rw [show removeUnsafe ([] : List Char) = [] from rfl]
    rw [lfind_append hcolon]
    have hheadD : (s ++ ':' :: '/' :: '/' :: (n ++ '/' :: p')).headD ' ' =
        s.headD ' ' := by
      cases s with
      | nil => exact absurd rfl hs0
      | cons a t => rfl
    have hcond : 0 < s.length ∧
        isAsciiAlpha ((s ++ ':' :: '/' :: '/' :: (n ++ '/' :: p')).headD ' ') = true ∧
        (List.take s.length (s ++ ':' :: '/' :: '/' :: (n ++ '/' :: p'))).all
          isSchemeChar = true := by
      refine ⟨List.length_pos.mpr hs0, ?_, ?_⟩
      · rw [hheadD]
        exact hs1
      · rw [List.take_left]
        exact hs2
    dsimp only
    rw [if_pos hcond]
    have hdrop : List.drop (s.length + 1) (s ++ ':' :: '/' :: '/' :: (n ++ '/' :: p')) =
        '/' :: '/' :: (n ++ '/' :: p') := by
      rw [← List.drop_drop, List.drop_left]
      rfl
    rw [List.take_left, hslow, hdrop]
    have hsw : lStartsWith ('/' :: '/' :: (n ++ '/' :: p')) ['/', '/'] = true := by
      show (decide ('/' = '/') && (decide ('/' = '/') && lStartsWith (n ++ '/' :: p') []))
        = true
      rw [lStartsWith_nil]
      rfl
    dsimp only
    rw [if_pos hsw]
    rw [show List.drop 2 ('/' :: '/' :: (n ++ '/' :: p')) = n ++ '/' :: p' from rfl]
    simp only [splitNetloc]
    rw [takeWhile_append_all n hnetdelim '/' (by decide) p',
      dropWhile_append_all n hnetdelim '/' (by decide) p']
    rw [if_neg (bool_ne_true hbrf)]
    have hnohash : '#' ∉ ('/' :: p') := fun hc => (hp1 '#' hc).1 rfl
    have hnoq : '?' ∉ ('/' :: p') := fun hc => (hp1 '?' hc).2.1 rfl
    rw [splitFirst_of_not_mem hnohash]
    dsimp only
    rw [splitFirst_of_not_mem hnoq]
  · rw [if_neg hq0]
    have hsafeO : ∀ c ∈ s ++ ':' :: '/' :: '/' :: (n ++ '/' :: (p' ++ '?' :: q)),
        (!isUnsafeUrlByte c) = true := by
      intro c hc
      rcases List.mem_append.mp hc with h | h
      · exact hgoal c (isSchemeChar_safe (hall c h))
      · rcases List.mem_cons.mp h with rfl | h
        · exact hgoal _ (by decide)
        · rcases List.mem_cons.mp h with rfl | h
          · exact hgoal _ (by decide)
          · rcases List.mem_cons.mp h with rfl | h
            · exact hgoal _ (by decide)
            · rcases List.mem_append.mp h with h | h
              · exact hgoal c (hn c h).2.2.2.2.2
              · rcases List.mem_cons.mp h with rfl | h
                · exact hgoal _ (by decide)
                · rcases List.mem_append.mp h with h | h
                  · exact hgoal c (hp1 c (List.mem_cons_of_mem '/' h)).2.2
                  · rcases List.mem_cons.mp h with rfl | h
                    · exact hgoal _ (by decide)
                    · exact hgoal c (hq c h).2
    simp only [pyUrlsplit]
    rw [show removeUnsafe (s ++ ':' :: '/' :: '/' :: (n ++ '/' :: (p' ++ '?' :: q))) =
      s ++ ':' :: '/' :: '/' :: (n ++ '/' :: (p' ++ '?' :: q))
      from List.filter_eq_self.mpr hsafeO]
    rw [show removeUnsafe ([] : List Char) = [] from rfl]
    rw [lfind_append hcolon]
    have hheadD : (s ++ ':' :: '/' :: '/' :: (n ++ '/' :: (p' ++ '?' :: q))).headD ' ' =
        s.headD ' ' := by
      cases s with
      | nil => exact absurd rfl hs0
      | cons a t => rfl
    have hcond : 0 < s.length ∧
        isAsciiAlpha ((s ++ ':' :: '/' :: '/' ::
          (n ++ '/' :: (p' ++ '?' :: q))).headD ' ') = true ∧
        (List.take s.length (s ++ ':' :: '/' :: '/' ::
          (n ++ '/' :: (p' ++ '?' :: q)))).all isSchemeChar = true := by
      refine ⟨List.length_pos.mpr hs0, ?_, ?_⟩
      · rw [hheadD]
        exact hs1
      · rw [List.take_left]
        exact hs2
    dsimp only
    rw [if_pos hcond]
    have hdrop : List.drop (s.length + 1)
        (s ++ ':' :: '/' :: '/' :: (n ++ '/' :: (p' ++ '?' :: q))) =
        '/' :: '/' :: (n ++ '/' :: (p' ++ '?' :: q)) := by
      rw [← List.drop_drop, List.drop_left]
      rfl
    rw [List.take_left, hslow, hdrop]
    have hsw : lStartsWith ('/' :: '/' :: (n ++ '/' :: (p' ++ '?' :: q))) ['/', '/']
        = true := by
      show (decide ('/' = '/') && (decide ('/' = '/') &&
        lStartsWith (n ++ '/' :: (p' ++ '?' :: q)) [])) = true
      rw [lStartsWith_nil]
      rfl
    dsimp only
    rw [if_pos hsw]
    rw [show List.drop 2 ('/' :: '/' :: (n ++ '/' :: (p' ++ '?' :: q))) =
      n ++ '/' :: (p' ++ '?' :: q) from rfl]
    simp only [splitNetloc]
    rw [takeWhile_append_all n hnetdelim '/' (by decide) (p' ++ '?' :: q),
      dropWhile_append_all n hnetdelim '/' (by decide) (p' ++ '?' :: q)]
    rw [if_neg (bool_ne_true hbrf)]
    have hnohash : '#' ∉ ('/' :: (p' ++ '?' :: q)) := by
      intro hc
      rcases List.mem_cons.mp hc with hh | hh
      · exact absurd hh (by decide)
      · rcases List.mem_append.mp hh with hh | hh
        · exact (hp1 '#' (List.mem_cons_of_mem '/' hh)).1 rfl
        · rcases List.mem_cons.mp hh with hh | hh
          · exact absurd hh (by decide)
          · exact (hq '#' hh).1 rfl
    have hnoq : '?' ∉ ('/' :: p') := fun hc => (hp1 '?' hc).2.1 rfl
    rw [splitFirst_of_not_mem hnohash]
    dsimp only
    rw [show ('/' : Char) :: (p' ++ '?' :: q) = ('/' :: p') ++ '?' :: q from rfl]
    rw [splitFirst_append hnoq q]

/-- `urlparse` of the reassembled URL: with no `;` in the path, no params are
split off. -/
theorem pyUrlparse_reconstruct (s n p q : List Char)
    (hs0 : s ≠ []) (hs1 : isAsciiAlpha (s.headD ' ') = true)
    (hs2 : s.all isSchemeChar = true) (hslow : pyLowerL s = s)
    (hn : ∀ c ∈ n, c ≠ '/' ∧ c ≠ '?' ∧ c ≠ '#' ∧ c ≠ '[' ∧ c ≠ ']' ∧
      isUnsafeUrlByte c = false)
    (hp0 : p.head? = some '/')
    (hp1 : ∀ c ∈ p, c ≠ '#' ∧ c ≠ '?' ∧ isUnsafeUrlByte c = false)
    (hsemi : ';' ∉ p)
    (hq : ∀ c ∈ q, c ≠ '#' ∧ isUnsafeUrlByte c = false) :
    pyUrlparse ⟨s ++ ':' :: '/' :: '/' :: n ++ p ++ (if q = [] then [] else '?' :: q)⟩
      = some ⟨⟨s⟩, ⟨n⟩, ⟨p⟩, "", ⟨q⟩, ""⟩ := by
  unfold pyUrlparse
  rw [pyUrlsplit_reconstruct s n p q hs0 hs1 hs2 hslow hn hp0 hp1 hq]
  rw [Option.map_some']
  dsimp only
  rw [if_neg (fun hc => bool_ne_true (contains_eq_false hsemi) hc.2)]

/-- The reassembled URL is a fixed point of `normalize` when its pieces are
fixed points of the respective component transforms. -/
theorem normalize_reassembled_fix (s n p q : List Char)
    (hs0 : s ≠ []) (hs1 : isAsciiAlpha (s.headD ' ') = true)
    (hs2 : s.all isSchemeChar = true) (hslow : pyLowerL s = s)
    (hn : ∀ c ∈ n, c ≠ '/' ∧ c ≠ '?' ∧ c ≠ '#' ∧ c ≠ '[' ∧ c ≠ ']' ∧
      isUnsafeUrlByte c = false)
    (hnlow : pyLowerL n = n)
    (hp0 : p.head? = some '/')
    (hp1 : ∀ c ∈ p, c ≠ '#' ∧ c ≠ '?' ∧ isUnsafeUrlByte c = false)
    (hsemi : ';' ∉ p)
    (hpfix : URLNormalizer.stripPath p = p)
    (hq : ∀ c ∈ q, c ≠ '#' ∧ isUnsafeUrlByte c = false)
    (hqfix : URLNormalizer.normalizeQuery q = q) :
    URLNormalizer.normalize
        ⟨s ++ ':' :: '/' :: '/' :: n ++ p ++ (if q = [] then [] else '?' :: q)⟩ =
      ⟨s ++ ':' :: '/' :: '/' :: n ++ p ++ (if q = [] then [] else '?' :: q)⟩ := by
  unfold URLNormalizer.normalize
  rw [pyUrlparse_reconstruct s n p q hs0 hs1 hs2 hslow hn hp0 hp1 hsemi hq]
  dsimp only
  rw [show (pyLower ⟨s⟩).data = pyLowerL s from rfl,
    show (pyLower ⟨n⟩).data = pyLowerL n from rfl]
  rw [hslow, hnlow, hpfix, hqfix]

/-- C5 (amended): `normalize` IS idempotent on URLs whose parse is
well-formed in the sense the normalizer assumes: a nonempty scheme, a
netloc free of path/query/fragment delimiters and brackets, an
absolute-or-empty path free of `#`, `?`, `;` and unsafe bytes whose
slash-stripped form is nonempty.  (The unrestricted claim is false:
see the counterexample.) -/
theorem normalize_idem_of_wf (u : String) (pr : ParseResult)
    (hp : pyUrlparse u = some pr)
    (hs0 : pr.scheme ≠ "")
    (hs1 : isAsciiAlpha ((pyLower pr.scheme).data.headD ' ') = true)
    (hs2 : ((pyLower pr.scheme).data.all isSchemeChar) = true)
    (hn : ∀ c ∈ (pyLower pr.netloc).data, c ≠ '/' ∧ c ≠ '?' ∧ c ≠ '#' ∧ c ≠ '[' ∧
      c ≠ ']' ∧ isUnsafeUrlByte c = false)
    (hpath0 : pr.path.data = [] ∨ pr.path.data.head? = some '/')
    (hpath1 : ∀ c ∈ pr.path.data, c ≠ '#' ∧ c ≠ '?' ∧ c ≠ ';' ∧
      isUnsafeUrlByte c = false)
    (hstrip : URLNormalizer.stripPath pr.path.data ≠ []) :
    URLNormalizer.normalize (URLNormalizer.normalize u) =
      URLNormalizer.normalize u := by
  have hnu : URLNormalizer.normalize u =
      ⟨(pyLower pr.scheme).data ++ ':' :: '/' :: '/' :: (pyLower pr.netloc).data ++
        URLNormalizer.stripPath pr.path.data ++
        (if URLNormalizer.normalizeQuery pr.query.data = [] then []
         else '?' :: URLNormalizer.normalizeQuery pr.query.data)⟩ := by
    unfold URLNormalizer.normalize
    rw [hp]
  have hs0' : (pyLower pr.scheme).data ≠ [] := by
    intro hc
    apply hs0
    have hc' : List.map Char.toLower pr.scheme.data = [] := hc
    have hd : pr.scheme.data = [] := List.map_eq_nil_iff.mp hc'
    apply String.ext
    rw [hd]
  have hslow' : pyLowerL (pyLower pr.scheme).data = (pyLower pr.scheme).data :=
    pyLowerL_idem pr.scheme.data
  have hnlow' : pyLowerL (pyLower pr.netloc).data = (pyLower pr.netloc).data :=
    pyLowerL_idem pr.netloc.data
  have hp0' : (URLNormalizer.stripPath pr.path.data).head? = some '/' :=
    stripPath_head pr.path.data hpath0 hstrip
  have hp1' : ∀ c ∈ URLNormalizer.stripPath pr.path.data,
      c ≠ '#' ∧ c ≠ '?' ∧ isUnsafeUrlByte c = false := by
    intro c hc
    rcases mem_stripPath hc with h | h
    · exact ⟨(hpath1 c h).1, (hpath1 c h).2.1, (hpath1 c h).2.2.2⟩
    · subst h
      exact ⟨by decide, by decide, by decide⟩
  have hsemi' : ';' ∉ URLNormalizer.stripPath pr.path.data := by
    intro hc
    rcases mem_stripPath hc with h | h
    · exact (hpath1 ';' h).2.2.1 rfl
    · exact absurd h (by decide)
  have hq' : ∀ c ∈ URLNormalizer.normalizeQuery pr.query.data,
      c ≠ '#' ∧ isUnsafeUrlByte c = false :=
    fun c hc => ⟨(mem_normalizeQuery hc).1, (mem_normalizeQuery hc).2.2⟩
  rw [hnu]
  exact normalize_reassembled_fix _ _ _ _ hs0' hs1 hs2 hslow' hn hnlow' hp0' hp1'
    hsemi' (stripPath_idem _ hstrip) hq' (normalizeQuery_idem pr.query.data)

/-- Witness: `normalize` is idempotent on
`http://Example.COM/a/b/?b=2&a=1`. -/
theorem normalize_idem_of_wf_witness :
    pyUrlparse "http://Example.COM/a/b/?b=2&a=1" =
        some ⟨"http", "Example.COM", "/a/b/", "", "b=2&a=1", ""⟩ ∧
    URLNormalizer.stripPath ("/a/b/" : String).data ≠ [] ∧
    URLNormalizer.normalize (URLNormalizer.normalize "http://Example.COM/a/b/?b=2&a=1")
      = URLNormalizer.normalize "http://Example.COM/a/b/?b=2&a=1" :=
  ⟨by decide, by decide,
    normalize_idem_of_wf "http://Example.COM/a/b/?b=2&a=1"
      ⟨"http", "Example.COM", "/a/b/", "", "b=2&a=1", ""⟩
      (by decide) (by decide) (by decide) (by decide) (by decide) (by decide)
      (by decide) (by decide)⟩

/-! ## Provenance of extracted assets (the only filter is the `data:` prefix) -/

/-- An asset reference was produced from some stripped attribute value that
passed the extractor's only filter: nonempty and not starting with
`data:`. -/
def assetFromFiltered (pageUrl : String) (a : AssetRef) : Prop :=
  ∃ s : String, s ≠ "" ∧ ¬ lStartsWith s.data ("data:" : String).data = true ∧
    pyUrljoin pageUrl s = some a.url

namespace AssetExtractor

theorem addAsset_prov {pageUrl atype : String} {mime : String → String} {raw : String}
    {st st' : ExtState} (h : addAsset pageUrl atype mime raw st = some st')
    (hinv : ∀ a ∈ st.assets, assetFromFiltered pageUrl a) :
    ∀ a ∈ st'.assets, assetFromFiltered pageUrl a := by
  unfold addAsset at h
  by_cases hc : pyStrip raw ≠ "" ∧ ¬ lStartsWith (pyStrip raw).data
      ("data:" : String).data = true
  · rw [if_pos hc] at h
    cases hjoin : pyUrljoin pageUrl (pyStrip raw) with
    | none =>
      rw [hjoin] at h
      exact absurd h (by intro hcc; cases hcc)
    | some url =>
      rw [hjoin] at h
      dsimp only at h
      by_cases hseen : st.seen.contains url = true
      · rw [if_pos hseen] at h
        rw [← Option.some.inj h]
        exact hinv
      · rw [if_neg hseen] at h
        rw [← Option.some.inj h]
        intro a ha
        rcases List.mem_append.mp ha with ha | ha
        · exact hinv a ha
        · rw [List.mem_singleton.mp ha]
          exact ⟨pyStrip raw, hc.1, hc.2, hjoin⟩
  · rw [if_neg hc] at h
    rw [← Option.some.inj h]
    exact hinv

theorem foldPass_prov {pageUrl : String} {f : Tag → ExtState → Option ExtState}
    (hf : ∀ t st st', f t st = some st' →
      (∀ a ∈ st.assets, assetFromFiltered pageUrl a) →
      ∀ a ∈ st'.assets, assetFromFiltered pageUrl a) :
    ∀ (tags : List Tag) (st st' : ExtState), foldPass f tags st = some st' →
      (∀ a ∈ st.assets, assetFromFiltered pageUrl a) →
      ∀ a ∈ st'.assets, assetFromFiltered pageUrl a
  | [], st, st', h, hinv => by
    rw [← Option.some.inj h]
    exact hinv
  | t :: ts, st, st', h, hinv => by
    have h' : (match f t st with
        | none => none
        | some st1 => foldPass f ts st1) = some st' := h
    cases hft : f t st with
    | none =>
      rw [hft] at h'
      exact absurd h' (by intro hcc; cases hcc)
    | some st1 =>
      rw [hft] at h'
      exact foldPass_prov hf ts st1 st' h' (hf t st st1 hft hinv)

theorem imgPass_prov (pageUrl : String) : ∀ (t : Tag) (st st' : ExtState),
    imgPass pageUrl t st = some st' →
    (∀ a ∈ st.assets, assetFromFiltered pageUrl a) →
    ∀ a ∈ st'.assets, assetFromFiltered pageUrl a := by
  intro t st st' h hinv
  cases t with
  | img osrc =>
    cases osrc with
    | some src => exact addAsset_prov h hinv
    | none =>
      rw [← Option.some.inj h]
      exact hinv
  | link _ _ =>
    rw [← Option.some.inj h]
    exact hinv
  | script _ =>
    rw [← Option.some.inj h]
    exact hinv
  | meta _ _ _ =>
    rw [← Option.some.inj h]
    exact hinv
  | anchor _ =>
    rw [← Option.some.inj h]
    exact hinv
  | other =>
    rw [← Option.some.inj h]
    exact hinv

theorem stylesheetPass_prov (pageUrl : String) : ∀ (t : Tag) (st st' : ExtState),
    stylesheetPass pageUrl t st = some st' →
    (∀ a ∈ st.assets, assetFromFiltered pageUrl a) →
    ∀ a ∈ st'.assets, assetFromFiltered pageUrl a := by
  intro t st st' h hinv
  cases t with
  | link orels ohref =>
    cases orels with
    | some rels =>
      have h' : (if rels.contains "stylesheet" then
          addAsset pageUrl "css" (fun _ => "text/css") (ohref.getD "") st
        else some st) = some st' := h
      by_cases hr : rels.contains "stylesheet" = true
      · rw [if_pos hr] at h'
        exact addAsset_prov h' hinv
      · rw [if_neg hr] at h'
        rw [← Option.some.inj h']
        exact hinv
    | none =>
      rw [← Option.some.inj h]
      exact hinv
  | img _ =>
    rw [← Option.some.inj h]
    exact hinv
  | script _ =>
    rw [← Option.some.inj h]
    exact hinv
  | meta _ _ _ =>
    rw [← Option.some.inj h]
    exact hinv
  | anchor _ =>
    rw [← Option.some.inj h]
    exact hinv
  | other =>
    rw [← Option.some.inj h]
    exact hinv

theorem scriptPass_prov (pageUrl : String) : ∀ (t : Tag) (st st' : ExtState),
    scriptPass pageUrl t st = some st' →
    (∀ a ∈ st.assets, assetFromFiltered pageUrl a) →
    ∀ a ∈ st'.assets, assetFromFiltered pageUrl a := by
  intro t st st' h hinv
  cases t with
  | script osrc =>
    cases osrc with
    | some src => exact addAsset_prov h hinv
    | none =>
      rw [← Option.some.inj h]
      exact hinv
  | img _ =>
    rw [← Option.some.inj h]
    exact hinv
  | link _ _ =>
    rw [← Option.some.inj h]
    exact hinv
  | meta _ _ _ =>
    rw [← Option.some.inj h]
    exact hinv
  | anchor _ =>
    rw [← Option.some.inj h]
    exact hinv
  | other =>
    rw [← Option.some.inj h]
    exact hinv

theorem faviconPass_prov (pageUrl : String) : ∀ (t : Tag) (st st' : ExtState),
    faviconPass pageUrl t st = some st' →
    (∀ a ∈ st.assets, assetFromFiltered pageUrl a) →
    ∀ a ∈ st'.assets, assetFromFiltered pageUrl a := by
  intro t st st' h hinv
  cases t with
  | link orels ohref =>
    cases orels with
    | some rels =>
      have h' : (if rels.any (fun r => r = "icon" ∨ r = "shortcut icon") then
          addAsset pageUrl "image" guess_mime_type (ohref.getD "") st
        else some st) = some st' := h
      by_cases hr : rels.any (fun r => r = "icon" ∨ r = "shortcut icon") = true
      · rw [if_pos hr] at h'
        exact addAsset_prov h' hinv
      · rw [if_neg hr] at h'
        rw [← Option.some.inj h']
        exact hinv
    | none =>
      rw [← Option.some.inj h]
      exact hinv
  | img _ =>
    rw [← Option.some.inj h]
    exact hinv
  | script _ =>
    rw [← Option.some.inj h]
    exact hinv
  | meta _ _ _ =>
    rw [← Option.some.inj h]
    exact hinv
  | anchor _ =>
    rw [← Option.some.inj h]
    exact hinv
  | other =>
    rw [← Option.some.inj h]
    exact hinv

theorem metaPass_prov (pageUrl : String) : ∀ (t : Tag) (st st' : ExtState),
    metaPass pageUrl t st = some st' →
    (∀ a ∈ st.assets, assetFromFiltered pageUrl a) →
    ∀ a ∈ st'.assets, assetFromFiltered pageUrl a := by
  intro t st st' h hinv
  cases t with
  | meta oprop oname ocontent =>
    have h' : (match propOrName oprop oname with
        | some pn =>
          if (["og:image", "twitter:image"].map String.data).any
              (fun x => lContainsSub (pyLowerL pn.data) x) then
            addAsset pageUrl "image" guess_mime_type (ocontent.getD "") st
          else some st
        | none => some st) = some st' := h
    cases hpn : propOrName oprop oname with
    | some pn =>
      rw [hpn] at h'
      have h'' : (if (["og:image", "twitter:image"].map String.data).any
            (fun x => lContainsSub (pyLowerL pn.data) x) then
          addAsset pageUrl "image" guess_mime_type (ocontent.getD "") st
        else some st) = some st' := h'
      by_cases hr : (["og:image", "twitter:image"].map String.data).any
          (fun x => lContainsSub (pyLowerL pn.data) x) = true
      · rw [if_pos hr] at h''
        exact addAsset_prov h'' hinv
      · rw [if_neg hr] at h''
        rw [← Option.some.inj h'']
        exact hinv
    | none =>
      rw [hpn] at h'
      rw [← Option.some.inj h']
      exact hinv
  | img _ =>
    rw [← Option.some.inj h]
    exact hinv
  | link _ _ =>
    rw [← Option.some.inj h]
    exact hinv
  | script _ =>
    rw [← Option.some.inj h]
    exact hinv
  | anchor _ =>
    rw [← Option.some.inj h]
    exact hinv
  | other =>
    rw [← Option.some.inj h]
    exact hinv

end AssetExtractor

/-- C9 (amended): the extractor's ONLY pseudo-URL filter is the literal
`data:` prefix check on the stripped raw attribute: every asset reference
in `extract_assets`'s output resolves `urljoin(page_url, s)` of some
stripped attribute value `s` that is nonempty and does not start with
`data:` — nothing rejects `javascript:`, `mailto:`, `tel:` or `blob:`
URLs (see the counterexample for a surviving `mailto:`). -/
theorem extract_assets_only_data_filtered (tags : List Tag) (pageUrl : String)
    {out : List AssetRef} (h : AssetExtractor.extract_assets tags pageUrl = some out) :
    ∀ a ∈ out, assetFromFiltered pageUrl a := by
  unfold AssetExtractor.extract_assets at h
  cases h1 : AssetExtractor.foldPass (AssetExtractor.imgPass pageUrl) tags ⟨[], []⟩ with
  | none =>
    rw [h1] at h
    exact absurd h (by intro hcc; cases hcc)
  | some st1 =>
    rw [h1, Option.some_bind] at h
    cases h2 : AssetExtractor.foldPass (AssetExtractor.stylesheetPass pageUrl) tags st1 with
    | none =>
      rw [h2] at h
      exact absurd h (by intro hcc; cases hcc)
    | some st2 =>
      rw [h2, Option.some_bind] at h
      cases h3 : AssetExtractor.foldPass (AssetExtractor.scriptPass pageUrl) tags st2 with
      | none =>
        rw [h3] at h
        exact absurd h (by intro hcc; cases hcc)
      | some st3 =>
        rw [h3, Option.some_bind] at h
        cases h4 : AssetExtractor.foldPass (AssetExtractor.faviconPass pageUrl) tags st3 with
        | none =>
          rw [h4] at h
          exact absurd h (by intro hcc; cases hcc)
        | some st4 =>
          rw [h4, Option.some_bind] at h
          cases h5 : AssetExtractor.foldPass (AssetExtractor.metaPass pageUrl) tags st4 with
          | none =>
            rw [h5] at h
            exact absurd h (by intro hcc; cases hcc)
          | some st5 =>
            rw [h5, Option.map_some'] at h
            have hout : st5.assets = out := Option.some.inj h
            rw [← hout]
            have i0 : ∀ a ∈ (⟨[], []⟩ : AssetExtractor.ExtState).assets,
                assetFromFiltered pageUrl a := fun a ha => absurd ha (List.not_mem_nil a)
            have i1 := AssetExtractor.foldPass_prov (AssetExtractor.imgPass_prov pageUrl)
              tags _ _ h1 i0
            have i2 := AssetExtractor.foldPass_prov
              (AssetExtractor.stylesheetPass_prov pageUrl) tags _ _ h2 i1
            have i3 := AssetExtractor.foldPass_prov
              (AssetExtractor.scriptPass_prov pageUrl) tags _ _ h3 i2
            have i4 := AssetExtractor.foldPass_prov
              (AssetExtractor.faviconPass_prov pageUrl) tags _ _ h4 i3
            exact AssetExtractor.foldPass_prov
              (AssetExtractor.metaPass_prov pageUrl) tags _ _ h5 i4

/-- Witness: the surviving `mailto:` asset of the counterexample document is
traced back to its raw attribute by the provenance theorem. -/
theorem extract_assets_only_data_filtered_witness :
    AssetExtractor.extract_assets [Tag.img (some "mailto:x@y")] "https://example.com/" =
        some [⟨"mailto:x@y", "image", "application/octet-stream"⟩] ∧
    ∀ a ∈ [(⟨"mailto:x@y", "image", "application/octet-stream"⟩ : AssetRef)],
      assetFromFiltered "https://example.com/" a :=
  ⟨by decide,
    extract_assets_only_data_filtered [Tag.img (some "mailto:x@y")] "https://example.com/"
      (by decide)⟩

end Crawler
